import Mathlib

/-
Verification of the arena-backed `OptTree` structure (src/tree/opt_tree.rs).

The embedding models:
  * `CoreTree` (the arena: slot table, free list, root handle) - its source
    file is not part of the included sources, so it is modelled from the
    spec, section 4.1;
  * `OptNode` and its only caller-visible constructor `Node::new` - modelled
    from the spec, section 3;
  * the `OptTree` operations `insert`, `insert_under_node`, `set_root`,
    `get`, `get_mut` (data writes), `remove` and `ancestors` - translated
    from src/tree/opt_tree.rs.  Paths that `panic!` in the source (the
    `expect` in the unchecked accessors, the invalid-state branches of
    `insert_under_node`, and `unimplemented!`) are modelled by an explicit
    `panicked` outcome.

Link walks (sibling chains, ancestor chains) are modelled by a fuel-bounded
`walk` function, with fuel equal to the arena size; a fuel-free relational
version `WalkRel` is used in the proofs.
-/

/-- Opaque handle to an arena slot; carries only the slot index. -/
structure NodeId where
  index : Nat
  deriving DecidableEq

/-- A tree node: user data plus five optional structural links. -/
structure OptNode (T : Type) where
  data : T
  parent : Option NodeId
  first_child : Option NodeId
  last_child : Option NodeId
  prev_sibling : Option NodeId
  next_sibling : Option NodeId
  deriving DecidableEq

/-- Modelled from the spec: `Node::new` (the only node constructor available
to callers) builds a node with the given data and no structural links. -/
def OptNode.new {T : Type} (d : T) : OptNode T :=
  ⟨d, none, none, none, none, none⟩

/-- Modelled from the spec: the caller-visible error kinds of section 7. -/
inductive NodeIdError where
  | HandleInvalid
  | InvalidOperation
  deriving DecidableEq

/-- Modelled from the spec: insertion placement. -/
inductive InsertBehavior where
  | UnderNode (parent_id : NodeId)
  | AsRoot

/-- Modelled from the spec: removal behavior. -/
inductive RemoveBehavior where
  | DropSubtree
  | LiftChildrenToParent

/-- Modelled from the spec, section 4.1: the arena owns a table of optional
node slots, a free list of reclaimed slot indices, and the root handle.
(`CoreTree` lives in a source file that is not included; only its caller
`OptTree` is.) -/
structure CoreTree (T : Type) where
  nodes : List (Option (OptNode T))
  free_ids : List NodeId
  root : Option NodeId
  deriving DecidableEq

/-- Modelled from the spec: `allocate` pops a free slot if one is available,
otherwise appends a new slot; stores the node; returns its handle. -/
def CoreTree.insert {T : Type} (c : CoreTree T) (new_node : OptNode T) :
    NodeId × CoreTree T :=
  match c.free_ids with
  | fid :: rest =>
      (fid, { c with nodes := c.nodes.set fid.index (some new_node), free_ids := rest })
  | [] =>
      (⟨c.nodes.length⟩, { c with nodes := c.nodes ++ [some new_node] })

/-- Modelled from the spec: `CoreTree::set_root` allocates the node and
records its handle as the tree's root. -/
def CoreTree.set_root {T : Type} (c : CoreTree T) (new_root : OptNode T) :
    NodeId × CoreTree T :=
  match c.insert new_root with
  | (id, c1) => (id, { c1 with root := some id })

/-- Modelled from the spec: validation succeeds iff the slot index is in
bounds and the slot is currently occupied. -/
def CoreTree.validate_node_id {T : Type} (c : CoreTree T) (id : NodeId) : Bool :=
  ((c.nodes[id.index]?).bind fun s => s).isSome

/-- The tree facade from src/tree/opt_tree.rs: owns only the arena. -/
structure OptTree (T : Type) where
  core_tree : CoreTree T
  deriving DecidableEq

/-- The node stored at slot `i`, if that slot exists and is occupied.
This is the semantics of the checked and unchecked accessors alike; the
unchecked ones panic where this returns `none`. -/
def getNode {T : Type} (t : OptTree T) (i : Nat) : Option (OptNode T) :=
  (t.core_tree.nodes[i]?).bind fun s => s

/-- `OptTree::new`: the empty tree (per the `new` test: no nodes, no free
ids, no root). -/
def OptTree.new {T : Type} : OptTree T :=
  ⟨⟨[], [], none⟩⟩

/-- In-place mutation of one node through `get_unchecked_mut`: apply `f` to
the node in slot `id` if occupied; no-op otherwise (the panicking callers
guard occupancy separately). -/
def OptTree.modifyNode {T : Type} (t : OptTree T) (id : NodeId)
    (f : OptNode T → OptNode T) : OptTree T :=
  match getNode t id.index with
  | none => t
  | some nd =>
      ⟨{ t.core_tree with nodes := t.core_tree.nodes.set id.index (some (f nd)) }⟩

/-- Outcome of a mutating operation returning a handle: success with the new
handle and the tree after mutation, a caller-visible error together with the
tree as the operation leaves it, or a panic. -/
inductive OpResult (T : Type) where
  | ok : NodeId → OptTree T → OpResult T
  | error : NodeIdError → OptTree T → OpResult T
  | panicked : OpResult T
  deriving DecidableEq

/-- Outcome of `remove`. -/
inductive RemoveResult (T : Type) where
  | ok : OptNode T → OptTree T → RemoveResult T
  | error : NodeIdError → OptTree T → RemoveResult T
  | panicked : RemoveResult T
  deriving DecidableEq

/-- `OptTree::insert_under_node`, translated statement by statement from the
source: set the new node's parent, allocate it, read the parent's child
pair, then either append to the sibling chain (both links present), panic
(exactly one link present), or set both links (no children). -/
def OptTree.insert_under_node {T : Type} (t : OptTree T) (node : OptNode T)
    (parent_id : NodeId) : OpResult T :=
  let node1 := { node with parent := some parent_id }
  match t.core_tree.insert node1 with
  | (new_id, core1) =>
    let t1 : OptTree T := ⟨core1⟩
    match getNode t1 parent_id.index with
    | none => OpResult.panicked
    | some parent =>
      match parent.first_child, parent.last_child with
      | some _, some last_id =>
          let t2 := t1.modifyNode parent_id fun nd => { nd with last_child := some new_id }
          let t3 := t2.modifyNode new_id fun nd => { nd with prev_sibling := some last_id }
          match getNode t3 last_id.index with
          | none => OpResult.panicked
          | some _ =>
              OpResult.ok new_id
                (t3.modifyNode last_id fun nd => { nd with next_sibling := some new_id })
      | some _, none => OpResult.panicked
      | none, some _ => OpResult.panicked
      | none, none =>
          OpResult.ok new_id
            (t1.modifyNode parent_id fun nd =>
              { nd with first_child := some new_id, last_child := some new_id })

/-- `OptTree::set_root`, translated from the source: remember the current
root, allocate the new node as root, and if there was a previous root make
it the sole child of the new one. -/
def OptTree.set_root {T : Type} (t : OptTree T) (new_root : OptNode T) : OpResult T :=
  let current_root := t.core_tree.root
  match t.core_tree.set_root new_root with
  | (new_root_id, core1) =>
    let t1 : OptTree T := ⟨core1⟩
    match current_root with
    | none => OpResult.ok new_root_id t1
    | some current_root_id =>
      match getNode t1 current_root_id.index with
      | none => OpResult.panicked
      | some _ =>
          let t2 := t1.modifyNode current_root_id fun nd =>
            { nd with parent := some new_root_id }
          OpResult.ok new_root_id
            (t2.modifyNode new_root_id fun nd =>
              { nd with first_child := some current_root_id,
                        last_child := some current_root_id })

/-- `OptTree::insert`: validate the parent handle for `UnderNode` before any
mutation; `AsRoot` goes straight to `set_root`. -/
def OptTree.insert {T : Type} (t : OptTree T) (node : OptNode T)
    (behavior : InsertBehavior) : OpResult T :=
  match behavior with
  | InsertBehavior.UnderNode parent_id =>
      if t.core_tree.validate_node_id parent_id then t.insert_under_node node parent_id
      else OpResult.error NodeIdError.HandleInvalid t
  | InsertBehavior.AsRoot => t.set_root node

/-- `OptTree::get`: validated read of a node. -/
def OptTree.get {T : Type} (t : OptTree T) (node_id : NodeId) :
    Except NodeIdError (OptNode T) :=
  match getNode t node_id.index with
  | some nd => Except.ok nd
  | none => Except.error NodeIdError.HandleInvalid

/-- Writing user data through `get_mut` / `data_mut` (the only mutation a
caller can perform on a borrowed node; the structural setters are crate
private). No-op when the handle is invalid, matching the error path. -/
def OptTree.updateData {T : Type} (t : OptTree T) (id : NodeId) (d : T) : OptTree T :=
  t.modifyNode id fun nd => { nd with data := d }

/-- `OptTree::remove`: the source body is `unimplemented!()`, which panics
unconditionally for every input. -/
def OptTree.remove {T : Type} (t : OptTree T) (node_id : NodeId)
    (behavior : RemoveBehavior) : RemoveResult T :=
  RemoveResult.panicked

/-- `OptTree::root_node_id`: the arena's root handle. -/
def OptTree.root_node_id {T : Type} (t : OptTree T) : Option NodeId :=
  t.core_tree.root

/-- Slot index carried by an optional handle. -/
def oIdx (o : Option NodeId) : Option Nat :=
  o.map NodeId.index

/-- Fuel-bounded iteration of a link-walking step.  `step i = none` means
slot `i` is unoccupied (the walk is broken); `step i = some nxt` yields the
next optional slot.  The walk ends successfully when the current handle is
`none`; it returns `none` when it hits a broken slot or runs out of fuel. -/
def walk (step : Nat → Option (Option Nat)) : Nat → Option Nat → Option (List Nat)
  | _, none => some []
  | 0, some _ => none
  | Nat.succ fuel, some i =>
    match step i with
    | none => none
    | some nxt => (walk step fuel nxt).map fun l => i :: l

/-- Fuel-free relational description of `walk`. -/
inductive WalkRel (step : Nat → Option (Option Nat)) : Option Nat → List Nat → Prop where
  | nil : WalkRel step none []
  | cons {i : Nat} {nxt : Option Nat} {l : List Nat} :
      step i = some nxt → WalkRel step nxt l → WalkRel step (some i) (i :: l)

/-- One step along `next_sibling` links. -/
def childStep {T : Type} (t : OptTree T) (i : Nat) : Option (Option Nat) :=
  (getNode t i).map fun nd => oIdx nd.next_sibling

/-- One step along `prev_sibling` links. -/
def prevStep {T : Type} (t : OptTree T) (i : Nat) : Option (Option Nat) :=
  (getNode t i).map fun nd => oIdx nd.prev_sibling

/-- One step along `parent` links. -/
def parentStep {T : Type} (t : OptTree T) (i : Nat) : Option (Option Nat) :=
  (getNode t i).map fun nd => oIdx nd.parent

/-- The list of slot indices of `i`'s children, in sibling order: the
`next_sibling` walk from `first_child`, with fuel the arena size.  `none`
when `i` is unoccupied or the chain is broken or cyclic. -/
def childList {T : Type} (t : OptTree T) (i : Nat) : Option (List Nat) :=
  match getNode t i with
  | none => none
  | some nd => walk (childStep t) t.core_tree.nodes.length (oIdx nd.first_child)

/-- The ancestor chain starting at (and including) slot `i`: the `parent`
walk, with fuel the arena size. -/
def ancList {T : Type} (t : OptTree T) (i : Nat) : Option (List Nat) :=
  walk (parentStep t) t.core_tree.nodes.length (some i)

/-- `OptTree::ancestors` validates the handle and returns the iterator; the
iterator itself is modelled from the spec, section 4.3: it lazily yields
`start`, then `start`'s parent, and so on up to and including the root.
The inner `Option` is the fuel-bounded walk (`none` cannot occur on valid
trees). -/
def OptTree.ancestors {T : Type} (t : OptTree T) (node_id : NodeId) :
    Except NodeIdError (Option (List Nat)) :=
  if t.core_tree.validate_node_id node_id then Except.ok (ancList t node_id.index)
  else Except.error NodeIdError.HandleInvalid

/-- `optHolds o p` holds when `o` is `none`, or its payload satisfies `p`. -/
def optHolds {α : Type} (o : Option α) (p : α → Prop) : Prop :=
  match o with
  | none => True
  | some a => p a

instance {α : Type} {o : Option α} {p : α → Prop} [h : ∀ a, Decidable (p a)] :
    Decidable (optHolds o p) :=
  match o with
  | none => Decidable.isTrue trivial
  | some a => h a

/-- `someIs o p` holds when `o` is `some a` with `p a`. -/
def someIs {α : Type} (o : Option α) (p : α → Prop) : Prop :=
  match o with
  | none => False
  | some a => p a

instance {α : Type} {o : Option α} {p : α → Prop} [h : ∀ a, Decidable (p a)] :
    Decidable (someIs o p) :=
  match o with
  | none => Decidable.isFalse fun hf => hf
  | some a => h a

/-- Membership in an optional list, `False` when absent. -/
def memSome (i : Nat) (o : Option (List Nat)) : Prop :=
  match o with
  | none => False
  | some l => i ∈ l

instance {i : Nat} {o : Option (List Nat)} : Decidable (memSome i o) :=
  match o with
  | none => Decidable.isFalse fun hf => hf
  | some l => List.instDecidableMemOfLawfulBEq i l

/-- The optional list is present and duplicate free. -/
def nodupSome (o : Option (List Nat)) : Prop :=
  match o with
  | none => False
  | some l => l.Nodup

instance {o : Option (List Nat)} : Decidable (nodupSome o) :=
  match o with
  | none => Decidable.isFalse fun hf => hf
  | some l => List.nodupDecidable l

/-- Free-list health: indices are pairwise distinct, in bounds, and name
slots that are currently empty. -/
def FreeOk {T : Type} (t : OptTree T) : Prop :=
  (t.core_tree.free_ids.map NodeId.index).Nodup
  ∧ ∀ fid ∈ t.core_tree.free_ids,
      fid.index < t.core_tree.nodes.length ∧ (getNode t fid.index).isNone = true

/-- The local structural invariants of one occupied slot `i` holding `nd`
(spec, section 3): link targets occupied, `first_child`/`last_child` both
present or both absent, head/tail children carry no outer sibling link and
point back to `i`, sibling links are mutually inverse and stay inside one
parent, a parentless node is the root and has no siblings, a node with no
`next_sibling` (resp. `prev_sibling`) is its parent's `last_child` (resp.
`first_child`), and every node with a parent occurs on that parent's child
chain. -/
def LocalOk {T : Type} (t : OptTree T) (i : Nat) (nd : OptNode T) : Prop :=
  optHolds nd.parent (fun p => (getNode t p.index).isSome = true)
  ∧ (nd.first_child = none ↔ nd.last_child = none)
  ∧ optHolds nd.first_child (fun c => someIs (getNode t c.index) fun cnd =>
      cnd.parent = some ⟨i⟩ ∧ cnd.prev_sibling = none)
  ∧ optHolds nd.last_child (fun c => someIs (getNode t c.index) fun cnd =>
      cnd.parent = some ⟨i⟩ ∧ cnd.next_sibling = none)
  ∧ optHolds nd.next_sibling (fun y => someIs (getNode t y.index) fun ynd =>
      ynd.prev_sibling = some ⟨i⟩ ∧ ynd.parent = nd.parent)
  ∧ optHolds nd.prev_sibling (fun y => someIs (getNode t y.index) fun ynd =>
      ynd.next_sibling = some ⟨i⟩ ∧ ynd.parent = nd.parent)
  ∧ (nd.parent = none →
      t.core_tree.root = some ⟨i⟩ ∧ nd.prev_sibling = none ∧ nd.next_sibling = none)
  ∧ optHolds nd.parent (fun p => nd.next_sibling = none →
      someIs (getNode t p.index) fun pnd => pnd.last_child = some ⟨i⟩)
  ∧ optHolds nd.parent (fun p => nd.prev_sibling = none →
      someIs (getNode t p.index) fun pnd => pnd.first_child = some ⟨i⟩)
  ∧ optHolds nd.parent (fun p => memSome i (childList t p.index))

/-- Slot-level invariant: if occupied, the local invariants hold, the child
chain is a well-formed duplicate-free list, and the ancestor chain is a
well-formed duplicate-free list. -/
def SlotOk {T : Type} (t : OptTree T) (i : Nat) : Prop :=
  optHolds (getNode t i) fun nd =>
    LocalOk t i nd
    ∧ nodupSome (childList t i)
    ∧ nodupSome (ancList t i)

/-- The full tree invariant: the root handle (when present) names an
occupied, parentless slot; an absent root means an empty arena; the free
list is healthy; every slot satisfies `SlotOk`. -/
def TreeInv {T : Type} (t : OptTree T) : Prop :=
  optHolds t.core_tree.root (fun r => someIs (getNode t r.index) fun nd => nd.parent = none)
  ∧ (t.core_tree.root = none →
      ∀ i, i < t.core_tree.nodes.length → (getNode t i).isNone = true)
  ∧ FreeOk t
  ∧ ∀ i, i < t.core_tree.nodes.length → SlotOk t i

instance {T : Type} {t : OptTree T} {i : Nat} {nd : OptNode T} :
    Decidable (LocalOk t i nd) := by
  unfold LocalOk; infer_instance

instance {T : Type} {t : OptTree T} {i : Nat} : Decidable (SlotOk t i) := by
  unfold SlotOk; infer_instance

instance {T : Type} {t : OptTree T} : Decidable (FreeOk t) := by
  unfold FreeOk; infer_instance

instance {T : Type} {t : OptTree T} : Decidable (TreeInv t) := by
  unfold TreeInv; infer_instance

/-- Tree states reachable by the implemented public operations: the empty
tree `new()`, successful `insert` of a caller-constructed node (either
behavior), and data writes through `get_mut`. -/
inductive Reachable {T : Type} : OptTree T → Prop where
  | new : Reachable OptTree.new
  | insert {t t' : OptTree T} {d : T} {b : InsertBehavior} {id : NodeId} :
      Reachable t → OptTree.insert t (OptNode.new d) b = OpResult.ok id t' → Reachable t'
  | update {t : OptTree T} (id : NodeId) (d : T) :
      Reachable t → Reachable (t.updateData id d)

/-- Concrete example: a root holding 1 (the result of inserting it into the
empty tree as root). -/
def exTree1 : OptTree Int :=
  ⟨⟨[some ⟨1, none, none, none, none, none⟩], [], some ⟨0⟩⟩⟩

/-- Concrete example: root 1 with a single child 2. -/
def exTree2 : OptTree Int :=
  ⟨⟨[some ⟨1, none, some ⟨1⟩, some ⟨1⟩, none, none⟩,
     some ⟨2, some ⟨0⟩, none, none, none, none⟩], [], some ⟨0⟩⟩⟩

/-- Concrete example: root 1 with children 2 and 3 in that order. -/
def exTree3 : OptTree Int :=
  ⟨⟨[some ⟨1, none, some ⟨1⟩, some ⟨2⟩, none, none⟩,
     some ⟨2, some ⟨0⟩, none, none, none, some ⟨2⟩⟩,
     some ⟨3, some ⟨0⟩, none, none, some ⟨1⟩, none⟩], [], some ⟨0⟩⟩⟩

/-! ### Generic walk lemmas -/

theorem walk_sound {step : Nat → Option (Option Nat)} :
    ∀ {f : Nat} {o : Option Nat} {l : List Nat}, walk step f o = some l → WalkRel step o l := by
  intro f
  induction f with
  | zero =>
      intro o l h
      cases o with
      | none => cases h; exact WalkRel.nil
      | some i => cases h
  | succ f ih =>
      intro o l h
      cases o with
      | none => cases h; exact WalkRel.nil
      | some i =>
          unfold walk at h
          cases hs : step i with
          | none => simp only [hs] at h; cases h
          | some nxt =>
              simp only [hs] at h
              cases hw : walk step f nxt with
              | none => simp only [hw, Option.map_none'] at h; cases h
              | some l' =>
                  simp only [hw, Option.map_some'] at h
                  cases h
                  exact WalkRel.cons hs (ih hw)

theorem walk_none {step : Nat → Option (Option Nat)} {f : Nat} :
    walk step f none = some [] := by
  cases f <;> rfl

theorem walkRel_fuel {step : Nat → Option (Option Nat)} {o : Option Nat} {l : List Nat}
    (h : WalkRel step o l) : ∀ {f : Nat}, l.length ≤ f → walk step f o = some l := by
  induction h with
  | nil => intro f _; cases f <;> rfl
  | @cons i nxt l hs _ ih =>
      intro f hf
      cases f with
      | zero => simp at hf
      | succ f =>
          have hl : l.length ≤ f := Nat.le_of_succ_le_succ (by simpa using hf)
          unfold walk
          simp only [hs, ih hl, Option.map_some']

theorem walk_length_le {step : Nat → Option (Option Nat)} :
    ∀ {f : Nat} {o : Option Nat} {l : List Nat}, walk step f o = some l → l.length ≤ f := by
  intro f
  induction f with
  | zero =>
      intro o l h
      cases o with
      | none => cases h; simp
      | some i => cases h
  | succ f ih =>
      intro o l h
      cases o with
      | none => cases h; simp
      | some i =>
          unfold walk at h
          cases hs : step i with
          | none => simp only [hs] at h; cases h
          | some nxt =>
              simp only [hs] at h
              cases hw : walk step f nxt with
              | none => simp only [hw, Option.map_none'] at h; cases h
              | some l' =>
                  simp only [hw, Option.map_some'] at h
                  cases h
                  simpa using Nat.succ_le_succ (ih hw)

theorem walkRel_congr {step stepB : Nat → Option (Option Nat)} {o : Option Nat} {l : List Nat}
    (h : WalkRel step o l) (hs : ∀ x ∈ l, stepB x = step x) : WalkRel stepB o l := by
  induction h with
  | nil => exact WalkRel.nil
  | @cons i nxt l hstep _ ih =>
      exact WalkRel.cons (by rw [hs i (by simp)] ; exact hstep)
        (ih fun x hx => hs x (by simp [hx]))

theorem walkRel_mem_step {step : Nat → Option (Option Nat)} {o : Option Nat} {l : List Nat}
    (h : WalkRel step o l) : ∀ x ∈ l, ∃ nxt, step x = some nxt := by
  induction h with
  | nil => intro x hx; cases hx
  | @cons i nxt l hstep _ ih =>
      intro x hx
      rcases List.mem_cons.mp hx with rfl | hx
      · exact ⟨nxt, hstep⟩
      · exact ih x hx

theorem walkRel_head {step : Nat → Option (Option Nat)} {c : Nat} {l : List Nat}
    (h : WalkRel step (some c) l) : ∃ l', l = c :: l' := by
  cases h with
  | cons hs hrest => exact ⟨_, rfl⟩

theorem walkRel_no_self {step : Nat → Option (Option Nat)} {i : Nat} :
    ∀ {l : List Nat}, WalkRel step (some i) l → step i = some (some i) → False := by
  intro l
  induction l with
  | nil => intro h _; cases h
  | cons a l ih =>
      intro h hs
      cases h with
      | cons hstep hrest =>
          rw [hs] at hstep
          cases hstep
          exact ih hrest hs

theorem walkRel_last {step : Nat → Option (Option Nat)} :
    ∀ {l : List Nat} {c : Nat}, WalkRel step (some c) l →
      ∃ e, l.getLast? = some e ∧ step e = some none := by
  intro l
  induction l with
  | nil => intro c h; cases h
  | cons a l ih =>
      intro c h
      cases h with
      | cons hstep hrest =>
          cases l with
          | nil =>
              cases hrest
              exact ⟨a, rfl, hstep⟩
          | cons b l' =>
              cases hrest with
              | cons hstep2 hrest2 =>
                  obtain ⟨e, he, hse⟩ := ih (WalkRel.cons hstep2 hrest2)
                  exact ⟨e, by rw [List.getLast?_cons_cons]; exact he, hse⟩

theorem walkRel_get {step : Nat → Option (Option Nat)} {o : Option Nat} {l : List Nat}
    (h : WalkRel step o l) : ∀ k x, l[k]? = some x → step x = some l[k + 1]? := by
  induction h with
  | nil => intro k x hx; simp at hx
  | @cons i nxt l hstep hrest ih =>
      intro k x hx
      cases k with
      | zero =>
          simp at hx
          subst hx
          cases hrest with
          | nil => simpa using hstep
          | cons h2 h3 => simpa using hstep
      | succ k =>
          simp only [List.getElem?_cons_succ] at hx ⊢
          exact ih k x hx

theorem walkRel_snoc {step stepB : Nat → Option (Option Nat)} {m : Nat} :
    ∀ {l : List Nat} {c e : Nat}, WalkRel step (some c) l → l.Nodup →
      l.getLast? = some e → (∀ x ∈ l, x ≠ e → stepB x = step x) →
      stepB e = some (some m) → stepB m = some none →
      WalkRel stepB (some c) (l ++ [m]) := by
  intro l
  induction l with
  | nil => intro c e h; cases h
  | cons a l ih =>
      intro c e h hnd hlast hagree he hm
      cases h with
      | cons hstep hrest =>
          cases l with
          | nil =>
              cases hrest
              have : a = e := by simpa using hlast
              subst this
              exact WalkRel.cons he (WalkRel.cons hm WalkRel.nil)
          | cons b l' =>
              cases hrest with
              | cons h2 h3 =>
              have hbl : WalkRel step (some b) (b :: l') := WalkRel.cons h2 h3
              have hlast' : (b :: l').getLast? = some e := by
                rw [List.getLast?_cons_cons] at hlast; exact hlast
              have hmem_e : e ∈ b :: l' := List.mem_of_mem_getLast? hlast'
              have hane : a ≠ e := by
                intro hae
                subst hae
                exact (List.nodup_cons.mp hnd).1 hmem_e
              have hsa : stepB a = step a := hagree a (by simp) hane
              have hnxt : WalkRel stepB (some b) ((b :: l') ++ [m]) :=
                ih hbl (List.nodup_cons.mp hnd).2 hlast'
                  (fun x hx hxe => hagree x (by simp [hx]) hxe) he hm
              exact WalkRel.cons (by rw [hsa]; exact hstep) hnxt

theorem walkRel_rev_aux {stepN stepP : Nat → Option (Option Nat)} :
    ∀ {l : List Nat} {c : Nat}, WalkRel stepN (some c) l →
      (∀ x ∈ l, ∀ y, stepN x = some (some y) → stepP y = some (some x)) →
      ∀ rest, WalkRel stepP (some c) (c :: rest) →
      ∀ e, l.getLast? = some e → WalkRel stepP (some e) (l.reverse ++ rest) := by
  intro l
  induction l with
  | nil => intro c h; cases h
  | cons a l ih =>
      intro c h hinv rest hacc e hlast
      cases h with
      | cons hstep hrest =>
          cases l with
          | nil =>
              cases hrest
              have : a = e := by simpa using hlast
              subst this
              simpa using hacc
          | cons b l' =>
              cases hrest with
              | cons h2 h3 =>
              have hbl : WalkRel stepN (some b) (b :: l') := WalkRel.cons h2 h3
              have hnb : stepN a = some (some b) := hstep
              have hpb : stepP b = some (some a) := hinv a (by simp) b hnb
              have hacc' : WalkRel stepP (some b) (b :: (a :: rest)) :=
                WalkRel.cons hpb hacc
              have hlast' : (b :: l').getLast? = some e := by
                rw [List.getLast?_cons_cons] at hlast; exact hlast
              have := ih hbl (fun x hx y hy => hinv x (by simp [hx]) y hy)
                (a :: rest) hacc' e hlast'
              simpa [List.append_assoc] using this

theorem nodup_lt_length_le {l : List Nat} {n : Nat} (hnd : l.Nodup)
    (hlt : ∀ x ∈ l, x < n) : l.length ≤ n := by
  have hsub : l.toFinset ⊆ Finset.range n := by
    intro x hx
    exact Finset.mem_range.mpr (hlt x (List.mem_toFinset.mp hx))
  have := Finset.card_le_card hsub
  rw [List.toFinset_card_of_nodup hnd, Finset.card_range] at this
  exact this

theorem nodup_lt_avoid_length_le {l : List Nat} {n f0 : Nat} (hnd : l.Nodup)
    (hlt : ∀ x ∈ l, x < n) (hne : ∀ x ∈ l, x ≠ f0) (hf : f0 < n) :
    l.length + 1 ≤ n := by
  have hsub : l.toFinset ⊆ (Finset.range n).erase f0 := by
    intro x hx
    have hxl := List.mem_toFinset.mp hx
    exact Finset.mem_erase.mpr ⟨hne x hxl, Finset.mem_range.mpr (hlt x hxl)⟩
  have hcard := Finset.card_le_card hsub
  rw [List.toFinset_card_of_nodup hnd,
    Finset.card_erase_of_mem (Finset.mem_range.mpr hf), Finset.card_range] at hcard
  omega

/-! ### Slot access and update lemmas -/

theorem getNode_lt {T : Type} {t : OptTree T} {i : Nat} {nd : OptNode T}
    (h : getNode t i = some nd) : i < t.core_tree.nodes.length := by
  by_contra hc
  unfold getNode at h
  rw [List.getElem?_eq_none_iff.mpr (Nat.le_of_not_lt hc)] at h
  cases h

theorem getNode_oob {T : Type} {t : OptTree T} {i : Nat}
    (h : t.core_tree.nodes.length ≤ i) : getNode t i = none := by
  unfold getNode
  rw [List.getElem?_eq_none_iff.mpr h]
  rfl

theorem getNode_modify {T : Type} (t : OptTree T) (id : NodeId)
    (f : OptNode T → OptNode T) (j : Nat) :
    getNode (t.modifyNode id f) j =
      if j = id.index then (getNode t j).map f else getNode t j := by
  cases h : getNode t id.index with
  | none =>
      simp only [OptTree.modifyNode, h]
      by_cases hj : j = id.index
      · subst hj; rw [if_pos rfl, h]; rfl
      · rw [if_neg hj]
  | some nd =>
      simp only [OptTree.modifyNode, h]
      by_cases hj : j = id.index
      · subst hj
        rw [if_pos rfl, h]
        unfold getNode
        simp only
        rw [List.getElem?_set_eq_of_lt _ (getNode_lt h)]
        rfl
      · rw [if_neg hj]
        unfold getNode
        simp only
        rw [List.getElem?_set_ne fun he => hj he.symm]

theorem modifyNode_len {T : Type} (t : OptTree T) (id : NodeId) (f : OptNode T → OptNode T) :
    (t.modifyNode id f).core_tree.nodes.length = t.core_tree.nodes.length := by
  cases h : getNode t id.index with
  | none => simp only [OptTree.modifyNode, h]
  | some nd => simp only [OptTree.modifyNode, h, List.length_set]

theorem modifyNode_root {T : Type} (t : OptTree T) (id : NodeId) (f : OptNode T → OptNode T) :
    (t.modifyNode id f).core_tree.root = t.core_tree.root := by
  cases h : getNode t id.index with
  | none => simp only [OptTree.modifyNode, h]
  | some nd => simp only [OptTree.modifyNode, h]

theorem modifyNode_free {T : Type} (t : OptTree T) (id : NodeId) (f : OptNode T → OptNode T) :
    (t.modifyNode id f).core_tree.free_ids = t.core_tree.free_ids := by
  cases h : getNode t id.index with
  | none => simp only [OptTree.modifyNode, h]
  | some nd => simp only [OptTree.modifyNode, h]

theorem childStep_congr {T : Type} {t tb : OptTree T} {x : Nat}
    (h : getNode tb x = getNode t x) : childStep tb x = childStep t x := by
  unfold childStep; rw [h]

theorem prevStep_congr {T : Type} {t tb : OptTree T} {x : Nat}
    (h : getNode tb x = getNode t x) : prevStep tb x = prevStep t x := by
  unfold prevStep; rw [h]

theorem parentStep_congr {T : Type} {t tb : OptTree T} {x : Nat}
    (h : getNode tb x = getNode t x) : parentStep tb x = parentStep t x := by
  unfold parentStep; rw [h]

theorem childStep_some {T : Type} {t : OptTree T} {x : Nat} {nd : OptNode T}
    (h : getNode t x = some nd) : childStep t x = some (oIdx nd.next_sibling) := by
  unfold childStep; rw [h]; rfl

theorem prevStep_some {T : Type} {t : OptTree T} {x : Nat} {nd : OptNode T}
    (h : getNode t x = some nd) : prevStep t x = some (oIdx nd.prev_sibling) := by
  unfold prevStep; rw [h]; rfl

theorem parentStep_some {T : Type} {t : OptTree T} {x : Nat} {nd : OptNode T}
    (h : getNode t x = some nd) : parentStep t x = some (oIdx nd.parent) := by
  unfold parentStep; rw [h]; rfl

theorem childStep_isSome {T : Type} {t : OptTree T} {x : Nat} {o : Option Nat}
    (h : childStep t x = some o) : ∃ nd, getNode t x = some nd ∧ oIdx nd.next_sibling = o := by
  unfold childStep at h
  cases hg : getNode t x with
  | none => rw [hg] at h; cases h
  | some nd => rw [hg] at h; exact ⟨nd, rfl, by cases h; rfl⟩

theorem parentStep_isSome {T : Type} {t : OptTree T} {x : Nat} {o : Option Nat}
    (h : parentStep t x = some o) : ∃ nd, getNode t x = some nd ∧ oIdx nd.parent = o := by
  unfold parentStep at h
  cases hg : getNode t x with
  | none => rw [hg] at h; cases h
  | some nd => rw [hg] at h; exact ⟨nd, rfl, by cases h; rfl⟩


/-- What `CoreTree.insert` (allocation) does to the slot table, given a
healthy free list: the returned handle names a previously empty slot which
now holds the node; all other slots, the root, and free-list health are
preserved; the table either grows by one (append) or keeps its size
(free-slot reuse). -/
theorem alloc_spec {T : Type} {t : OptTree T} {nd : OptNode T} {id : NodeId} {c1 : CoreTree T}
    (hF : FreeOk t) (h : t.core_tree.insert nd = (id, c1)) :
    getNode t id.index = none
    ∧ (∀ j, getNode (⟨c1⟩ : OptTree T) j = if j = id.index then some nd else getNode t j)
    ∧ c1.root = t.core_tree.root
    ∧ FreeOk (⟨c1⟩ : OptTree T)
    ∧ ((c1.nodes.length = t.core_tree.nodes.length + 1
          ∧ id.index = t.core_tree.nodes.length)
       ∨ (c1.nodes.length = t.core_tree.nodes.length
          ∧ id.index < t.core_tree.nodes.length)) := by
  unfold CoreTree.insert at h
  cases hfree : t.core_tree.free_ids with
  | nil =>
      simp only [hfree] at h
      cases h
      have hdesc : ∀ j, getNode (OptTree.mk (CoreTree.mk
            (t.core_tree.nodes ++ [some nd]) [] t.core_tree.root)) j =
          if j = t.core_tree.nodes.length then some nd else getNode t j := by
        intro j
        by_cases hj : j = t.core_tree.nodes.length
        · subst hj
          rw [if_pos rfl]
          unfold getNode
          simp [List.getElem?_append_right]
        · rw [if_neg hj]
          unfold getNode
          simp only
          by_cases hlt : j < t.core_tree.nodes.length
          · rw [List.getElem?_append]
            simp [hlt]
          · have h1 : t.core_tree.nodes.length ≤ j := Nat.le_of_not_lt hlt
            have h2 : t.core_tree.nodes.length + 1 ≤ j := by omega
            rw [List.getElem?_eq_none_iff.mpr (by simpa using h2),
              List.getElem?_eq_none_iff.mpr h1]
      refine ⟨getNode_oob (Nat.le_refl _), hdesc, rfl, ?_, Or.inl ⟨by simp, rfl⟩⟩
      constructor
      · simpa [hfree] using hF.1
      · intro fid hfid
        have hmem : fid ∈ t.core_tree.free_ids := by rw [hfree]; exact hfid
        obtain ⟨hlt, hnone⟩ := hF.2 fid hmem
        refine ⟨by simp; omega, ?_⟩
        rw [hdesc fid.index, if_neg (by omega)]
        exact hnone
  | cons fid rest =>
      simp only [hfree] at h
      cases h
      have hmem : id ∈ t.core_tree.free_ids := by rw [hfree]; exact List.mem_cons_self _ _
      obtain ⟨hlt, hnone⟩ := hF.2 id hmem
      have hgn : getNode t id.index = none := Option.isNone_iff_eq_none.mp hnone
      have hmapnd : (t.core_tree.free_ids.map NodeId.index).Nodup := hF.1
      rw [hfree] at hmapnd
      simp only [List.map_cons, List.nodup_cons] at hmapnd
      have hdesc : ∀ j, getNode (OptTree.mk (CoreTree.mk
            (t.core_tree.nodes.set id.index (some nd)) rest t.core_tree.root)) j =
          if j = id.index then some nd else getNode t j := by
        intro j
        by_cases hj : j = id.index
        · subst hj
          rw [if_pos rfl]
          unfold getNode
          simp only
          rw [List.getElem?_set_eq_of_lt _ hlt]
          rfl
        · rw [if_neg hj]
          unfold getNode
          simp only
          rw [List.getElem?_set_ne fun he => hj he.symm]
      refine ⟨hgn, hdesc, rfl, ?_, Or.inr ⟨by simp, hlt⟩⟩
      constructor
      · exact hmapnd.2
      · intro fid2 hfid2
        have hmem2 : fid2 ∈ t.core_tree.free_ids := by
          rw [hfree]; exact List.mem_cons_of_mem _ hfid2
        obtain ⟨hlt2, hnone2⟩ := hF.2 fid2 hmem2
        have hne : fid2.index ≠ id.index := by
          intro he
          exact hmapnd.1 (he ▸ List.mem_map_of_mem NodeId.index hfid2)
        refine ⟨by simpa using hlt2, ?_⟩
        rw [hdesc fid2.index, if_neg hne]
        exact hnone2

/-! ### Invariant accessors -/

theorem someIs_elim {α : Type} {o : Option α} {p : α → Prop} (h : someIs o p) :
    ∃ a, o = some a ∧ p a := by
  cases o with
  | none => exact h.elim
  | some a => exact ⟨a, rfl, h⟩

theorem inv_free {T : Type} {t : OptTree T} (hInv : TreeInv t) : FreeOk t :=
  hInv.2.2.1

theorem inv_slot {T : Type} {t : OptTree T} {i : Nat} {nd : OptNode T}
    (hInv : TreeInv t) (h : getNode t i = some nd) :
    LocalOk t i nd ∧ nodupSome (childList t i) ∧ nodupSome (ancList t i) := by
  have hs := hInv.2.2.2 i (getNode_lt h)
  unfold SlotOk at hs
  rw [h] at hs
  exact hs

theorem inv_childList {T : Type} {t : OptTree T} {i : Nat} {nd : OptNode T}
    (hInv : TreeInv t) (h : getNode t i = some nd) :
    ∃ l, childList t i = some l ∧ l.Nodup := by
  have hs := (inv_slot hInv h).2.1
  unfold nodupSome at hs
  cases hc : childList t i with
  | none => rw [hc] at hs; exact hs.elim
  | some l => rw [hc] at hs; exact ⟨l, rfl, hs⟩

theorem inv_ancList {T : Type} {t : OptTree T} {i : Nat} {nd : OptNode T}
    (hInv : TreeInv t) (h : getNode t i = some nd) :
    ∃ l, ancList t i = some l ∧ l.Nodup := by
  have hs := (inv_slot hInv h).2.2
  unfold nodupSome at hs
  cases hc : ancList t i with
  | none => rw [hc] at hs; exact hs.elim
  | some l => rw [hc] at hs; exact ⟨l, rfl, hs⟩

theorem inv_parent_occ {T : Type} {t : OptTree T} {i : Nat} {nd : OptNode T} {p : NodeId}
    (hInv : TreeInv t) (h : getNode t i = some nd) (hp : nd.parent = some p) :
    ∃ pnd, getNode t p.index = some pnd := by
  have hl := ((inv_slot hInv h).1).1
  rw [hp] at hl
  exact Option.isSome_iff_exists.mp hl

theorem inv_fc_iff_lc {T : Type} {t : OptTree T} {i : Nat} {nd : OptNode T}
    (hInv : TreeInv t) (h : getNode t i = some nd) :
    nd.first_child = none ↔ nd.last_child = none :=
  ((inv_slot hInv h).1).2.1

theorem inv_fc {T : Type} {t : OptTree T} {i : Nat} {nd : OptNode T} {c : NodeId}
    (hInv : TreeInv t) (h : getNode t i = some nd) (hc : nd.first_child = some c) :
    ∃ cnd, getNode t c.index = some cnd
      ∧ cnd.parent = some ⟨i⟩ ∧ cnd.prev_sibling = none := by
  have hl := ((inv_slot hInv h).1).2.2.1
  rw [hc] at hl
  obtain ⟨cnd, hcnd, h1, h2⟩ := someIs_elim hl
  exact ⟨cnd, hcnd, h1, h2⟩

theorem inv_lc {T : Type} {t : OptTree T} {i : Nat} {nd : OptNode T} {c : NodeId}
    (hInv : TreeInv t) (h : getNode t i = some nd) (hc : nd.last_child = some c) :
    ∃ cnd, getNode t c.index = some cnd
      ∧ cnd.parent = some ⟨i⟩ ∧ cnd.next_sibling = none := by
  have hl := ((inv_slot hInv h).1).2.2.2.1
  rw [hc] at hl
  obtain ⟨cnd, hcnd, h1, h2⟩ := someIs_elim hl
  exact ⟨cnd, hcnd, h1, h2⟩

theorem inv_next {T : Type} {t : OptTree T} {i : Nat} {nd : OptNode T} {y : NodeId}
    (hInv : TreeInv t) (h : getNode t i = some nd) (hy : nd.next_sibling = some y) :
    ∃ ynd, getNode t y.index = some ynd
      ∧ ynd.prev_sibling = some ⟨i⟩ ∧ ynd.parent = nd.parent := by
  have hl := ((inv_slot hInv h).1).2.2.2.2.1
  rw [hy] at hl
  obtain ⟨ynd, hynd, h1, h2⟩ := someIs_elim hl
  exact ⟨ynd, hynd, h1, h2⟩

theorem inv_prev {T : Type} {t : OptTree T} {i : Nat} {nd : OptNode T} {y : NodeId}
    (hInv : TreeInv t) (h : getNode t i = some nd) (hy : nd.prev_sibling = some y) :
    ∃ ynd, getNode t y.index = some ynd
      ∧ ynd.next_sibling = some ⟨i⟩ ∧ ynd.parent = nd.parent := by
  have hl := ((inv_slot hInv h).1).2.2.2.2.2.1
  rw [hy] at hl
  obtain ⟨ynd, hynd, h1, h2⟩ := someIs_elim hl
  exact ⟨ynd, hynd, h1, h2⟩

theorem inv_parent_none {T : Type} {t : OptTree T} {i : Nat} {nd : OptNode T}
    (hInv : TreeInv t) (h : getNode t i = some nd) (hp : nd.parent = none) :
    t.core_tree.root = some ⟨i⟩ ∧ nd.prev_sibling = none ∧ nd.next_sibling = none :=
  ((inv_slot hInv h).1).2.2.2.2.2.2.1 hp

theorem inv_last_back {T : Type} {t : OptTree T} {i : Nat} {nd : OptNode T} {p : NodeId}
    (hInv : TreeInv t) (h : getNode t i = some nd) (hp : nd.parent = some p)
    (hn : nd.next_sibling = none) :
    ∃ pnd, getNode t p.index = some pnd ∧ pnd.last_child = some ⟨i⟩ := by
  have hl := ((inv_slot hInv h).1).2.2.2.2.2.2.2.1
  rw [hp] at hl
  obtain ⟨pnd, hpnd, h1⟩ := someIs_elim (hl hn)
  exact ⟨pnd, hpnd, h1⟩

theorem inv_first_back {T : Type} {t : OptTree T} {i : Nat} {nd : OptNode T} {p : NodeId}
    (hInv : TreeInv t) (h : getNode t i = some nd) (hp : nd.parent = some p)
    (hn : nd.prev_sibling = none) :
    ∃ pnd, getNode t p.index = some pnd ∧ pnd.first_child = some ⟨i⟩ := by
  have hl := ((inv_slot hInv h).1).2.2.2.2.2.2.2.2.1
  rw [hp] at hl
  obtain ⟨pnd, hpnd, h1⟩ := someIs_elim (hl hn)
  exact ⟨pnd, hpnd, h1⟩

theorem inv_mem_childList {T : Type} {t : OptTree T} {i : Nat} {nd : OptNode T} {p : NodeId}
    (hInv : TreeInv t) (h : getNode t i = some nd) (hp : nd.parent = some p) :
    ∃ l, childList t p.index = some l ∧ i ∈ l := by
  have hl := ((inv_slot hInv h).1).2.2.2.2.2.2.2.2.2
  rw [hp] at hl
  have hl2 : memSome i (childList t p.index) := hl
  unfold memSome at hl2
  cases hc : childList t p.index with
  | none => rw [hc] at hl2; exact hl2.elim
  | some l => rw [hc] at hl2; exact ⟨l, rfl, hl2⟩

theorem inv_root {T : Type} {t : OptTree T} {r : NodeId}
    (hInv : TreeInv t) (h : t.core_tree.root = some r) :
    ∃ rnd, getNode t r.index = some rnd ∧ rnd.parent = none := by
  have hl := hInv.1
  rw [h] at hl
  obtain ⟨rnd, hrnd, h1⟩ := someIs_elim hl
  exact ⟨rnd, hrnd, h1⟩

theorem inv_empty {T : Type} {t : OptTree T} {i : Nat}
    (hInv : TreeInv t) (h : t.core_tree.root = none)
    (hi : i < t.core_tree.nodes.length) : getNode t i = none :=
  Option.isNone_iff_eq_none.mp (hInv.2.1 h i hi)

theorem inv_no_self_parent {T : Type} {t : OptTree T} {i : Nat} {nd : OptNode T}
    (hInv : TreeInv t) (h : getNode t i = some nd) : nd.parent ≠ some ⟨i⟩ := by
  intro hp
  obtain ⟨l, hl, _⟩ := inv_ancList hInv h
  have hrel : WalkRel (parentStep t) (some i) l := walk_sound hl
  have hstep : parentStep t i = some (some i) := by
    rw [parentStep_some h, hp]; rfl
  exact walkRel_no_self hrel hstep

/-- Every element of a `next_sibling` chain whose start is a child of `p`
is itself an occupied child of `p`. -/
theorem chain_parent {T : Type} {t : OptTree T} {p : Nat} (hInv : TreeInv t) :
    ∀ {o : Option Nat} {l : List Nat}, WalkRel (childStep t) o l →
      (∀ c, o = some c → ∃ cnd, getNode t c = some cnd ∧ cnd.parent = some ⟨p⟩) →
      ∀ x ∈ l, ∃ xnd, getNode t x = some xnd ∧ xnd.parent = some ⟨p⟩ := by
  intro o l h
  induction h with
  | nil => intro _ x hx; cases hx
  | @cons i nxt l hstep hrest ih =>
      intro hstart x hx
      obtain ⟨ind, hind, hpar⟩ := hstart i rfl
      rcases List.mem_cons.mp hx with rfl | hx
      · exact ⟨ind, hind, hpar⟩
      · refine ih ?_ x hx
        intro c hc
        rw [childStep_some hind] at hstep
        cases hstep
        cases hns : ind.next_sibling with
        | none =>
            rw [hns] at hc
            simp only [oIdx, Option.map_none'] at hc
            cases hc
        | some y =>
            rw [hns] at hc
            simp only [oIdx, Option.map_some'] at hc
            cases hc
            obtain ⟨ynd, hynd, _, hypar⟩ := inv_next hInv hind hns
            exact ⟨ynd, hynd, by rw [hypar, hpar]⟩

/-- Chain elements are occupied and in bounds. -/
theorem chain_mem_occ {T : Type} {t : OptTree T} {o : Option Nat} {l : List Nat}
    (h : WalkRel (childStep t) o l) :
    ∀ x ∈ l, (∃ xnd, getNode t x = some xnd) ∧ x < t.core_tree.nodes.length := by
  intro x hx
  obtain ⟨nxt, hstep⟩ := walkRel_mem_step h x hx
  obtain ⟨xnd, hxnd, _⟩ := childStep_isSome hstep
  exact ⟨⟨xnd, hxnd⟩, getNode_lt hxnd⟩

/-- Ancestor-chain elements are occupied and in bounds. -/
theorem anc_mem_occ {T : Type} {t : OptTree T} {o : Option Nat} {l : List Nat}
    (h : WalkRel (parentStep t) o l) :
    ∀ x ∈ l, (∃ xnd, getNode t x = some xnd) ∧ x < t.core_tree.nodes.length := by
  intro x hx
  obtain ⟨nxt, hstep⟩ := walkRel_mem_step h x hx
  obtain ⟨xnd, hxnd, _⟩ := parentStep_isSome hstep
  exact ⟨⟨xnd, hxnd⟩, getNode_lt hxnd⟩

/-! ### State descriptions of the mutating operations -/

theorem freeOk_modify {T : Type} {t : OptTree T} (hF : FreeOk t) (id : NodeId)
    (f : OptNode T → OptNode T) : FreeOk (t.modifyNode id f) := by
  constructor
  · rw [modifyNode_free]; exact hF.1
  · intro fid hfid
    rw [modifyNode_free] at hfid
    obtain ⟨hlt, hnone⟩ := hF.2 fid hfid
    refine ⟨by rw [modifyNode_len]; exact hlt, ?_⟩
    rw [getNode_modify]
    by_cases hj : fid.index = id.index
    · rw [if_pos hj, Option.isNone_iff_eq_none.mp hnone]
      rfl
    · rw [if_neg hj]
      exact hnone

/-- `insert_under_node` under a valid parent with no children: the result is
`Ok`; the new node lands in a previously free slot with its parent link set;
the parent gets both child links pointed at the new node; nothing else
changes. -/
theorem iun_none_spec {T : Type} {t : OptTree T} {node pnd : OptNode T} {pid : NodeId}
    (hInv : TreeInv t) (hp : getNode t pid.index = some pnd)
    (hlc : pnd.last_child = none) :
    ∃ nid t4,
      t.insert_under_node node pid = OpResult.ok nid t4
      ∧ getNode t nid.index = none
      ∧ (∀ j, getNode t4 j =
          if j = nid.index then some { node with parent := some pid }
          else if j = pid.index then
            some { pnd with first_child := some nid, last_child := some nid }
          else getNode t j)
      ∧ t4.core_tree.root = t.core_tree.root
      ∧ FreeOk t4
      ∧ ((t4.core_tree.nodes.length = t.core_tree.nodes.length + 1
            ∧ nid.index = t.core_tree.nodes.length)
         ∨ (t4.core_tree.nodes.length = t.core_tree.nodes.length
            ∧ nid.index < t.core_tree.nodes.length)) := by
  have hfc : pnd.first_child = none := (inv_fc_iff_lc hInv hp).mpr hlc
  cases hins : t.core_tree.insert { node with parent := some pid } with
  | mk nid c1 =>
  obtain ⟨hnew, hdesc1, hroot1, hfree1, hsize1⟩ := alloc_spec (inv_free hInv) hins
  have hpidne : pid.index ≠ nid.index := by
    intro he
    rw [← he] at hnew
    rw [hnew] at hp
    cases hp
  have hget1 : getNode (⟨c1⟩ : OptTree T) pid.index = some pnd := by
    rw [hdesc1 pid.index, if_neg hpidne]
    exact hp
  have heq : t.insert_under_node node pid = OpResult.ok nid
      ((⟨c1⟩ : OptTree T).modifyNode pid fun nd =>
        { nd with first_child := some nid, last_child := some nid }) := by
    simp only [OptTree.insert_under_node, hins, hget1, hfc, hlc]
  refine ⟨nid, _, heq, hnew, ?_, ?_, ?_, ?_⟩
  · intro j
    rw [getNode_modify]
    by_cases hjp : j = pid.index
    · subst hjp
      simp [hget1, hpidne]
    · by_cases hje : j = nid.index
      · subst hje
        simp [hdesc1, Ne.symm hpidne, hjp]
      · simp [hdesc1, hje, hjp]
  · rw [modifyNode_root]; exact hroot1
  · exact freeOk_modify hfree1 _ _
  · rw [modifyNode_len]; exact hsize1

/-- `insert_under_node` under a valid parent that already has children: the
result is `Ok`; the new node lands in a previously free slot with parent and
`prev_sibling` set; the parent's `last_child` and the old last child's
`next_sibling` are redirected to the new node; nothing else changes. -/
theorem iun_some_spec {T : Type} {t : OptTree T} {node pnd : OptNode T} {pid last : NodeId}
    (hInv : TreeInv t) (hp : getNode t pid.index = some pnd)
    (hlc : pnd.last_child = some last) :
    ∃ nid lnd t4,
      t.insert_under_node node pid = OpResult.ok nid t4
      ∧ getNode t nid.index = none
      ∧ getNode t last.index = some lnd
      ∧ lnd.parent = some pid ∧ lnd.next_sibling = none
      ∧ last.index ≠ pid.index ∧ nid.index ≠ pid.index ∧ nid.index ≠ last.index
      ∧ (∀ j, getNode t4 j =
          if j = nid.index then
            some { node with parent := some pid, prev_sibling := some last }
          else if j = pid.index then some { pnd with last_child := some nid }
          else if j = last.index then some { lnd with next_sibling := some nid }
          else getNode t j)
      ∧ t4.core_tree.root = t.core_tree.root
      ∧ FreeOk t4
      ∧ ((t4.core_tree.nodes.length = t.core_tree.nodes.length + 1
            ∧ nid.index = t.core_tree.nodes.length)
         ∨ (t4.core_tree.nodes.length = t.core_tree.nodes.length
            ∧ nid.index < t.core_tree.nodes.length)) := by
  obtain ⟨fc0, hfcs⟩ : ∃ fc0, pnd.first_child = some fc0 := by
    cases hf : pnd.first_child with
    | none => rw [(inv_fc_iff_lc hInv hp).mp hf] at hlc; cases hlc
    | some fc0 => exact ⟨fc0, rfl⟩
  obtain ⟨lnd, hlnd, hlpar, hlnext⟩ := inv_lc hInv hp hlc
  have hlastpid : last.index ≠ pid.index := by
    intro he
    rw [he, hp] at hlnd
    cases hlnd
    exact inv_no_self_parent hInv hp hlpar
  cases hins : t.core_tree.insert { node with parent := some pid } with
  | mk nid c1 =>
  obtain ⟨hnew, hdesc1, hroot1, hfree1, hsize1⟩ := alloc_spec (inv_free hInv) hins
  have hpidnid : pid.index ≠ nid.index := by
    intro he
    rw [← he] at hnew
    rw [hnew] at hp
    cases hp
  have hlastnid : last.index ≠ nid.index := by
    intro he
    rw [← he] at hnew
    rw [hnew] at hlnd
    cases hlnd
  have hget1 : getNode (⟨c1⟩ : OptTree T) pid.index = some pnd := by
    rw [hdesc1 pid.index, if_neg hpidnid]
    exact hp
  have hg3 : getNode
      (((⟨c1⟩ : OptTree T).modifyNode pid fun nd =>
          { nd with last_child := some nid }).modifyNode nid fun nd =>
          { nd with prev_sibling := some last }) last.index
      = some lnd := by
    rw [getNode_modify, if_neg hlastnid, getNode_modify, if_neg hlastpid,
      hdesc1, if_neg hlastnid]
    exact hlnd
  have heq : t.insert_under_node node pid = OpResult.ok nid
      ((((⟨c1⟩ : OptTree T).modifyNode pid fun nd =>
          { nd with last_child := some nid }).modifyNode nid fun nd =>
          { nd with prev_sibling := some last }).modifyNode last fun nd =>
          { nd with next_sibling := some nid }) := by
    simp only [OptTree.insert_under_node, hins, hget1, hfcs, hlc, hg3]
  refine ⟨nid, lnd, _, heq, hnew, hlnd, hlpar, hlnext, hlastpid,
    Ne.symm hpidnid, Ne.symm hlastnid, ?_, ?_, ?_, ?_⟩
  · intro j
    rw [getNode_modify, getNode_modify, getNode_modify]
    by_cases hjl : j = last.index
    · subst hjl
      simp [hlastnid, hlastpid, hdesc1, hlnd]
    · by_cases hjn : j = nid.index
      · subst hjn
        simp [hjl, Ne.symm hpidnid, hdesc1]
      · by_cases hjp : j = pid.index
        · subst hjp
          simp [hjl, hjn, hget1, hpidnid]
        · simp [hjl, hjn, hjp, hdesc1]
  · rw [modifyNode_root, modifyNode_root, modifyNode_root]; exact hroot1
  · exact freeOk_modify (freeOk_modify (freeOk_modify hfree1 _ _) _ _) _ _
  · rw [modifyNode_len, modifyNode_len, modifyNode_len]; exact hsize1

theorem validate_iff {T : Type} {t : OptTree T} {id : NodeId} :
    t.core_tree.validate_node_id id = true ↔ ∃ nd, getNode t id.index = some nd := by
  unfold CoreTree.validate_node_id
  exact Option.isSome_iff_exists

/-- `set_root` on an empty tree: the node is allocated, becomes the root,
and no link surgery happens. -/
theorem sr_none_spec {T : Type} {t : OptTree T} {node : OptNode T}
    (hInv : TreeInv t) (hroot : t.core_tree.root = none) :
    ∃ nid t2,
      t.set_root node = OpResult.ok nid t2
      ∧ getNode t nid.index = none
      ∧ (∀ j, getNode t2 j = if j = nid.index then some node else getNode t j)
      ∧ t2.core_tree.root = some nid
      ∧ FreeOk t2
      ∧ ((t2.core_tree.nodes.length = t.core_tree.nodes.length + 1
            ∧ nid.index = t.core_tree.nodes.length)
         ∨ (t2.core_tree.nodes.length = t.core_tree.nodes.length
            ∧ nid.index < t.core_tree.nodes.length)) := by
  cases hins : t.core_tree.insert node with
  | mk nid c1 =>
  obtain ⟨hnew, hdesc1, hroot1, hfree1, hsize1⟩ := alloc_spec (inv_free hInv) hins
  have heq : t.set_root node = OpResult.ok nid
      (⟨{ c1 with root := some nid }⟩ : OptTree T) := by
    simp only [OptTree.set_root, CoreTree.set_root, hins, hroot]
  refine ⟨nid, _, heq, hnew, ?_, rfl, ?_, ?_⟩
  · intro j
    exact hdesc1 j
  · exact hfree1
  · exact hsize1

/-- `set_root` on a tree with a root: the node is allocated as the new root;
the old root's `parent` is pointed at it and it adopts the old root as both
`first_child` and `last_child`; nothing else changes. -/
theorem sr_some_spec {T : Type} {t : OptTree T} {node : OptNode T} {cr : NodeId}
    (hInv : TreeInv t) (hroot : t.core_tree.root = some cr) :
    ∃ nid crnd t3,
      t.set_root node = OpResult.ok nid t3
      ∧ getNode t nid.index = none
      ∧ getNode t cr.index = some crnd
      ∧ crnd.parent = none
      ∧ nid.index ≠ cr.index
      ∧ (∀ j, getNode t3 j =
          if j = nid.index then
            some { node with first_child := some cr, last_child := some cr }
          else if j = cr.index then some { crnd with parent := some nid }
          else getNode t j)
      ∧ t3.core_tree.root = some nid
      ∧ FreeOk t3
      ∧ ((t3.core_tree.nodes.length = t.core_tree.nodes.length + 1
            ∧ nid.index = t.core_tree.nodes.length)
         ∨ (t3.core_tree.nodes.length = t.core_tree.nodes.length
            ∧ nid.index < t.core_tree.nodes.length)) := by
  obtain ⟨crnd, hcrnd, hcrpar⟩ := inv_root hInv hroot
  cases hins : t.core_tree.insert node with
  | mk nid c1 =>
  obtain ⟨hnew, hdesc1, hroot1, hfree1, hsize1⟩ := alloc_spec (inv_free hInv) hins
  have hcrne : cr.index ≠ nid.index := by
    intro he
    rw [← he] at hnew
    rw [hnew] at hcrnd
    cases hcrnd
  have hget1 : getNode (⟨{ c1 with root := some nid }⟩ : OptTree T) cr.index
      = some crnd := by
    have : getNode (⟨{ c1 with root := some nid }⟩ : OptTree T) cr.index
        = getNode (⟨c1⟩ : OptTree T) cr.index := rfl
    rw [this, hdesc1, if_neg hcrne]
    exact hcrnd
  have heq : t.set_root node = OpResult.ok nid
      (((⟨{ c1 with root := some nid }⟩ : OptTree T).modifyNode cr fun nd =>
          { nd with parent := some nid }).modifyNode nid fun nd =>
          { nd with first_child := some cr, last_child := some cr }) := by
    simp only [OptTree.set_root, CoreTree.set_root, hins, hroot, hget1]
  refine ⟨nid, crnd, _, heq, hnew, hcrnd, hcrpar, Ne.symm hcrne, ?_, ?_, ?_, ?_⟩
  · intro j
    rw [getNode_modify, getNode_modify]
    have hj1 : ∀ k, getNode (⟨{ c1 with root := some nid }⟩ : OptTree T) k
        = if k = nid.index then some node else getNode t k := fun k => hdesc1 k
    by_cases hjn : j = nid.index
    · subst hjn
      simp [Ne.symm hcrne, hj1]
    · by_cases hjc : j = cr.index
      · subst hjc
        simp [hjn, hget1, hcrne]
      · simp [hjn, hjc, hj1]
  · rw [modifyNode_root, modifyNode_root]
  · have hfree1b : FreeOk (⟨{ c1 with root := some nid }⟩ : OptTree T) := hfree1
    exact freeOk_modify (freeOk_modify hfree1b _ _) _ _
  · have hsize1b : (⟨{ c1 with root := some nid }⟩ : OptTree T).core_tree.nodes.length
        = c1.nodes.length := rfl
    rw [modifyNode_len, modifyNode_len, hsize1b]
    exact hsize1

/-- `insert` with `UnderNode` on an invalid handle: fails with
`HandleInvalid`, tree unchanged (validation precedes all mutation). -/
theorem insert_invalid_spec {T : Type} (t : OptTree T) (node : OptNode T) (pid : NodeId)
    (h : getNode t pid.index = none) :
    t.insert node (InsertBehavior.UnderNode pid)
      = OpResult.error NodeIdError.HandleInvalid t := by
  have hv : t.core_tree.validate_node_id pid = false := by
    rw [← Bool.not_eq_true]
    intro hc
    obtain ⟨nd, hnd⟩ := validate_iff.mp hc
    rw [h] at hnd
    cases hnd
  simp only [OptTree.insert, hv, Bool.false_eq_true, if_false]

theorem insert_under_eq {T : Type} {t : OptTree T} {node : OptNode T} {pid : NodeId}
    {nd : OptNode T} (h : getNode t pid.index = some nd) :
    t.insert node (InsertBehavior.UnderNode pid) = t.insert_under_node node pid := by
  have hv : t.core_tree.validate_node_id pid = true := validate_iff.mpr ⟨nd, h⟩
  simp only [OptTree.insert, hv, if_true]

theorem insert_asroot_eq {T : Type} (t : OptTree T) (node : OptNode T) :
    t.insert node InsertBehavior.AsRoot = t.set_root node := rfl

/-! ### Chain transfer lemmas -/

theorem childList_eq_of {T : Type} {t tb : OptTree T} {p : Nat} {pnd pndb : OptNode T}
    {l : List Nat}
    (hp : getNode t p = some pnd) (hpb : getNode tb p = some pndb)
    (hfc : pndb.first_child = pnd.first_child)
    (hcl : childList t p = some l)
    (hag : ∀ x ∈ l, childStep tb x = childStep t x)
    (hlen : l.length ≤ tb.core_tree.nodes.length) :
    childList tb p = some l := by
  unfold childList at hcl ⊢
  simp only [hp] at hcl
  simp only [hpb, hfc]
  exact walkRel_fuel (walkRel_congr (walk_sound hcl) hag) hlen

theorem ancList_eq_of {T : Type} {t tb : OptTree T} {i : Nat} {l : List Nat}
    (hal : ancList t i = some l)
    (hag : ∀ x ∈ l, parentStep tb x = parentStep t x)
    (hlen : l.length ≤ tb.core_tree.nodes.length) :
    ancList tb i = some l := by
  unfold ancList at hal ⊢
  exact walkRel_fuel (walkRel_congr (walk_sound hal) hag) hlen

theorem childList_snoc {T : Type} {t tb : OptTree T} {p : Nat} {pnd pndb : OptNode T}
    {l : List Nat} {last m : Nat}
    (hp : getNode t p = some pnd) (hpb : getNode tb p = some pndb)
    (hfc : pndb.first_child = pnd.first_child)
    (hcl : childList t p = some l) (hnd : l.Nodup)
    (hlast : l.getLast? = some last)
    (hag : ∀ x ∈ l, x ≠ last → childStep tb x = childStep t x)
    (hlaststep : childStep tb last = some (some m))
    (hmstep : childStep tb m = some none)
    (hlen : l.length + 1 ≤ tb.core_tree.nodes.length) :
    childList tb p = some (l ++ [m]) := by
  unfold childList at hcl ⊢
  simp only [hp] at hcl
  simp only [hpb, hfc]
  have hrel := walk_sound hcl
  cases hfco : pnd.first_child with
  | none =>
      rw [hfco] at hrel
      cases hrel
      cases hlast
  | some f =>
      rw [hfco] at hrel
      simp only [oIdx, Option.map_some'] at hrel ⊢
      have hsnoc := walkRel_snoc hrel hnd hlast hag hlaststep hmstep
      exact walkRel_fuel hsnoc (by simpa using hlen)

theorem childList_single {T : Type} {tb : OptTree T} {p : Nat} {pndb : OptNode T}
    {mid : NodeId}
    (hpb : getNode tb p = some pndb)
    (hfc : pndb.first_child = some mid)
    (hmstep : childStep tb mid.index = some none)
    (hlen : 1 ≤ tb.core_tree.nodes.length) :
    childList tb p = some [mid.index] := by
  unfold childList
  simp only [hpb, hfc]
  exact walkRel_fuel (WalkRel.cons hmstep WalkRel.nil) (by simpa using hlen)

theorem ancList_cons {T : Type} {tb : OptTree T} {i p : Nat} {lp : List Nat}
    (hstep : parentStep tb i = some (some p))
    (hrel : WalkRel (parentStep tb) (some p) lp)
    (hlen : lp.length + 1 ≤ tb.core_tree.nodes.length) :
    ancList tb i = some (i :: lp) := by
  unfold ancList
  exact walkRel_fuel (WalkRel.cons hstep hrel) (by simpa using hlen)

theorem ancList_snoc {T : Type} {t tb : OptTree T} {i : Nat} {l : List Nat} {last m : Nat}
    (hal : ancList t i = some l) (hnd : l.Nodup)
    (hlast : l.getLast? = some last)
    (hag : ∀ x ∈ l, x ≠ last → parentStep tb x = parentStep t x)
    (hlaststep : parentStep tb last = some (some m))
    (hmstep : parentStep tb m = some none)
    (hlen : l.length + 1 ≤ tb.core_tree.nodes.length) :
    ancList tb i = some (l ++ [m]) := by
  unfold ancList at hal ⊢
  have hrel := walk_sound hal
  have hsnoc := walkRel_snoc hrel hnd hlast hag hlaststep hmstep
  exact walkRel_fuel hsnoc (by simpa using hlen)

/-- Full characterization of the sibling chain of an occupied node `p` in an
invariant-satisfying tree: the chain exists, has no duplicates, contains
exactly the occupied nodes whose parent is `p`, starts at `first_child`,
ends at `last_child` (whose `next_sibling` is `none`), and the
`prev_sibling` walk from `last_child` yields the reverse chain. -/
theorem children_exact {T : Type} {t : OptTree T} {p : Nat} {pnd : OptNode T}
    (hInv : TreeInv t) (hp : getNode t p = some pnd) :
    ∃ l, childList t p = some l ∧ l.Nodup
      ∧ (∀ x, x ∈ l ↔ ∃ xnd, getNode t x = some xnd ∧ xnd.parent = some ⟨p⟩)
      ∧ oIdx pnd.first_child = l.head?
      ∧ (l = [] → pnd.last_child = none ∧ pnd.first_child = none)
      ∧ (∀ e, l.getLast? = some e → pnd.last_child = some ⟨e⟩
          ∧ ∃ end_nd, getNode t e = some end_nd ∧ end_nd.next_sibling = none)
      ∧ walk (prevStep t) t.core_tree.nodes.length (oIdx pnd.last_child)
          = some l.reverse := by
  obtain ⟨l, hcl, hnd⟩ := inv_childList hInv hp
  have hclw : walk (childStep t) t.core_tree.nodes.length (oIdx pnd.first_child)
      = some l := by
    unfold childList at hcl
    simp only [hp] at hcl
    exact hcl
  have hrel := walk_sound hclw
  have hstart : ∀ c, oIdx pnd.first_child = some c →
      ∃ cnd, getNode t c = some cnd ∧ cnd.parent = some ⟨p⟩ := by
    intro c hc
    cases hfco : pnd.first_child with
    | none => rw [hfco] at hc; cases hc
    | some f =>
        rw [hfco] at hc
        cases hc
        obtain ⟨cnd, hcnd, h1, _⟩ := inv_fc hInv hp hfco
        exact ⟨cnd, hcnd, h1⟩
  have hmem : ∀ x ∈ l, ∃ xnd, getNode t x = some xnd ∧ xnd.parent = some ⟨p⟩ :=
    chain_parent hInv hrel hstart
  have hmem_iff : ∀ x, x ∈ l ↔ ∃ xnd, getNode t x = some xnd ∧ xnd.parent = some ⟨p⟩ := by
    intro x
    constructor
    · exact hmem x
    · rintro ⟨xnd, hxnd, hxp⟩
      obtain ⟨l2, hcl2, hx2⟩ := inv_mem_childList hInv hxnd hxp
      have : childList t p = some l2 := hcl2
      rw [hcl] at this
      cases this
      exact hx2
  have hhead : oIdx pnd.first_child = l.head? := by
    cases hfco : pnd.first_child with
    | none =>
        rw [hfco] at hrel
        cases hrel
        rfl
    | some f =>
        rw [hfco] at hrel
        obtain ⟨l2, hl2⟩ := walkRel_head hrel
        rw [hl2]
        rfl
  have hlastf : ∀ e, l.getLast? = some e → pnd.last_child = some ⟨e⟩
      ∧ ∃ end_nd, getNode t e = some end_nd ∧ end_nd.next_sibling = none := by
    intro e he
    have hel : e ∈ l := List.mem_of_mem_getLast? he
    obtain ⟨end_nd, hend, hendp⟩ := hmem e hel
    have hestep : childStep t e = some none := by
      cases hfco : pnd.first_child with
      | none =>
          rw [hfco] at hrel
          cases hrel
          cases he
      | some f =>
          rw [hfco] at hrel
          obtain ⟨e2, he2, hs2⟩ := walkRel_last hrel
          rw [he] at he2
          cases he2
          exact hs2
    rw [childStep_some hend] at hestep
    have h2 : oIdx end_nd.next_sibling = none := by injection hestep
    have hnexte : end_nd.next_sibling = none := by
      cases hne : end_nd.next_sibling with
      | none => rfl
      | some y =>
          rw [hne] at h2
          simp only [oIdx, Option.map_some'] at h2
          cases h2
    obtain ⟨pnd2, hpnd2, hl2⟩ := inv_last_back hInv hend hendp hnexte
    have hpeq : pnd2 = pnd := by
      have h1 : getNode t p = some pnd2 := hpnd2
      rw [hp] at h1
      cases h1
      rfl
    exact ⟨by rw [← hpeq]; exact hl2, end_nd, hend, hnexte⟩
  have hempty : l = [] → pnd.last_child = none ∧ pnd.first_child = none := by
    intro hle
    subst hle
    have hfcn : pnd.first_child = none := by
      cases hfco : pnd.first_child with
      | none => rfl
      | some f =>
          rw [hfco] at hrel
          cases hrel
    exact ⟨(inv_fc_iff_lc hInv hp).mp hfcn, hfcn⟩
  refine ⟨l, hcl, hnd, hmem_iff, hhead, hempty, hlastf, ?_⟩
  cases hle : l.getLast? with
  | none =>
      have hln : l = [] := List.getLast?_eq_none_iff.mp hle
      subst hln
      rw [(hempty rfl).1]
      simp only [oIdx, Option.map_none', List.reverse_nil]
      exact walk_none
  | some e =>
      obtain ⟨hlce, end_nd, hend, hnexte⟩ := hlastf e hle
      rw [hlce]
      have hinv2 : ∀ x ∈ l, ∀ y, childStep t x = some (some y) →
          prevStep t y = some (some x) := by
        intro x hx y hy
        obtain ⟨xnd, hxnd, _⟩ := hmem x hx
        rw [childStep_some hxnd] at hy
        have hy2 : oIdx xnd.next_sibling = some y := by injection hy
        cases hxn : xnd.next_sibling with
        | none =>
            rw [hxn] at hy2
            simp only [oIdx, Option.map_none'] at hy2
            cases hy2
        | some yid =>
            rw [hxn] at hy2
            simp only [oIdx, Option.map_some'] at hy2
            cases hy2
            obtain ⟨ynd, hynd, hyprev, _⟩ := inv_next hInv hxnd hxn
            rw [prevStep_some hynd, hyprev]
            rfl
      cases hfco : pnd.first_child with
      | none =>
          rw [hfco] at hrel
          cases hrel
          cases hle
      | some f =>
          rw [hfco] at hrel
          obtain ⟨fnd, hfnd, _, hfprev⟩ := inv_fc hInv hp hfco
          have hacc : WalkRel (prevStep t) (some f.index) [f.index] := by
            refine WalkRel.cons ?_ WalkRel.nil
            rw [prevStep_some hfnd, hfprev]
            rfl
          have hrev := walkRel_rev_aux hrel hinv2 [] hacc e hle
          rw [List.append_nil] at hrev
          have hlen : l.reverse.length ≤ t.core_tree.nodes.length := by
            rw [List.length_reverse]
            exact walk_length_le hclw
          have : oIdx (some (⟨e⟩ : NodeId)) = some e := rfl
          rw [this]
          exact walkRel_fuel hrev hlen

/-! ### Helpers for rebuilding the invariant -/

theorem optHolds_intro {α : Type} {o : Option α} {p : α → Prop}
    (h : ∀ a, o = some a → p a) : optHolds o p := by
  cases o with
  | none => trivial
  | some a => exact h a rfl

theorem someIs_intro {α : Type} {o : Option α} {p : α → Prop} {a : α}
    (ho : o = some a) (h : p a) : someIs o p := by
  subst ho
  exact h

theorem memSome_intro {i : Nat} {o : Option (List Nat)} {l : List Nat}
    (ho : o = some l) (h : i ∈ l) : memSome i o := by
  subst ho
  exact h

theorem nodupSome_intro {o : Option (List Nat)} {l : List Nat}
    (ho : o = some l) (h : l.Nodup) : nodupSome o := by
  subst ho
  exact h

theorem walkRel_mem_suffix {step : Nat → Option (Option Nat)} :
    ∀ {o : Option Nat} {l : List Nat}, WalkRel step o l →
      ∀ x ∈ l, ∃ lx, WalkRel step (some x) lx := by
  intro o l h
  induction h with
  | nil => intro x hx; cases hx
  | @cons i nxt l hstep hrest ih =>
      intro x hx
      rcases List.mem_cons.mp hx with rfl | hx
      · exact ⟨x :: l, WalkRel.cons hstep hrest⟩
      · exact ih x hx

theorem no_self_next {T : Type} {t : OptTree T} {i : Nat} {nd : OptNode T}
    (hInv : TreeInv t) (h : getNode t i = some nd) : nd.next_sibling ≠ some ⟨i⟩ := by
  intro hn
  have hstep : childStep t i = some (some i) := by
    rw [childStep_some h, hn]
    rfl
  cases hpo : nd.parent with
  | none =>
      have h2 := (inv_parent_none hInv h hpo).2.2
      rw [h2] at hn
      cases hn
  | some q =>
      obtain ⟨qnd, hqnd⟩ := inv_parent_occ hInv h hpo
      obtain ⟨l, hcl, hil⟩ := inv_mem_childList hInv h hpo
      have hclw : walk (childStep t) t.core_tree.nodes.length (oIdx qnd.first_child)
          = some l := by
        unfold childList at hcl
        simp only [hqnd] at hcl
        exact hcl
      obtain ⟨li, hli⟩ := walkRel_mem_suffix (walk_sound hclw) i hil
      exact walkRel_no_self hli hstep

theorem no_self_prev {T : Type} {t : OptTree T} {i : Nat} {nd : OptNode T}
    (hInv : TreeInv t) (h : getNode t i = some nd) : nd.prev_sibling ≠ some ⟨i⟩ := by
  intro hn
  obtain ⟨ynd, hynd, hnext, _⟩ := inv_prev hInv h hn
  have h2 : getNode t i = some ynd := hynd
  rw [h] at h2
  cases h2
  exact no_self_next hInv h hnext

theorem childList_nil {T : Type} {tb : OptTree T} {p : Nat} {pndb : OptNode T}
    (hpb : getNode tb p = some pndb) (hfc : pndb.first_child = none) :
    childList tb p = some [] := by
  unfold childList
  simp only [hpb, hfc]
  exact walk_none

theorem childList_rel {T : Type} {t : OptTree T} {q : Nat} {qnd : OptNode T} {lq : List Nat}
    (hq : getNode t q = some qnd) (hlq : childList t q = some lq) :
    WalkRel (childStep t) (oIdx qnd.first_child) lq := by
  unfold childList at hlq
  simp only [hq] at hlq
  exact walk_sound hlq

theorem childList_len_le {T : Type} {t : OptTree T} {q : Nat} {lq : List Nat}
    (hlq : childList t q = some lq) : lq.length ≤ t.core_tree.nodes.length := by
  unfold childList at hlq
  cases hq : getNode t q with
  | none => rw [hq] at hlq; cases hlq
  | some qnd =>
      simp only [hq] at hlq
      exact walk_length_le hlq

theorem ancList_rel {T : Type} {t : OptTree T} {i : Nat} {l : List Nat}
    (hl : ancList t i = some l) : WalkRel (parentStep t) (some i) l := by
  unfold ancList at hl
  exact walk_sound hl

theorem ancList_len_le {T : Type} {t : OptTree T} {i : Nat} {l : List Nat}
    (hl : ancList t i = some l) : l.length ≤ t.core_tree.nodes.length := by
  unfold ancList at hl
  exact walk_length_le hl

/-! ### Invariant preservation: insert under a childless parent -/

theorem iun_preserve_none {T : Type} {t : OptTree T} {d : T} {pid : NodeId} {pnd : OptNode T}
    (hInv : TreeInv t) (hp : getNode t pid.index = some pnd)
    (hlc : pnd.last_child = none) :
    ∃ nid t4,
      t.insert_under_node (OptNode.new d) pid = OpResult.ok nid t4
      ∧ TreeInv t4
      ∧ getNode t nid.index = none
      ∧ childList t pid.index = some []
      ∧ childList t4 pid.index = some [nid.index]
      ∧ t4.core_tree.root = t.core_tree.root := by
  obtain ⟨nid, t4, heq, hnew, hdesc, hroot4, hfree4, hsize4⟩ :=
    @iun_none_spec T t (OptNode.new d) pnd pid hInv hp hlc
  have hocc_ne : ∀ {x : Nat} {xnd : OptNode T}, getNode t x = some xnd → x ≠ nid.index := by
    intro x xnd hx he
    rw [he, hnew] at hx
    cases hx
  have hpidnid : pid.index ≠ nid.index := hocc_ne hp
  have hget4pid : getNode t4 pid.index = some
      { pnd with first_child := some nid, last_child := some nid } := by
    rw [hdesc, if_neg hpidnid, if_pos rfl]
  have hget4nid : getNode t4 nid.index = some { OptNode.new d with parent := some pid } := by
    rw [hdesc, if_pos rfl]
  have hget4old : ∀ {j : Nat}, j ≠ nid.index → j ≠ pid.index →
      getNode t4 j = getNode t j := by
    intro j h1 h2
    rw [hdesc, if_neg h1, if_neg h2]
  have hlen_le : t.core_tree.nodes.length ≤ t4.core_tree.nodes.length := by
    rcases hsize4 with ⟨he, _⟩ | ⟨he, _⟩ <;> omega
  have hsteps : ∀ x, x ≠ nid.index →
      childStep t4 x = childStep t x ∧ prevStep t4 x = prevStep t x
        ∧ parentStep t4 x = parentStep t x := by
    intro x hx
    by_cases hxp : x = pid.index
    · subst hxp
      rw [childStep_some hget4pid, childStep_some hp,
        prevStep_some hget4pid, prevStep_some hp,
        parentStep_some hget4pid, parentStep_some hp]
      exact ⟨rfl, rfl, rfl⟩
    · have h := hget4old hx hxp
      exact ⟨childStep_congr h, prevStep_congr h, parentStep_congr h⟩
  have hocc4 : ∀ {x : Nat} {xnd : OptNode T}, getNode t x = some xnd →
      (getNode t4 x).isSome = true := by
    intro x xnd hx
    by_cases hxp : x = pid.index
    · subst hxp
      rw [hget4pid]
      rfl
    · rw [hget4old (hocc_ne hx) hxp, hx]
      rfl
  have hfields4 : ∀ {x : Nat} {xnd : OptNode T}, getNode t x = some xnd →
      ∃ xnd4, getNode t4 x = some xnd4 ∧ xnd4.parent = xnd.parent
        ∧ xnd4.prev_sibling = xnd.prev_sibling
        ∧ xnd4.next_sibling = xnd.next_sibling := by
    intro x xnd hx
    by_cases hxp : x = pid.index
    · subst hxp
      rw [hp] at hx
      cases hx
      exact ⟨_, hget4pid, rfl, rfl, rfl⟩
    · exact ⟨xnd, by rw [hget4old (hocc_ne hx) hxp]; exact hx, rfl, rfl, rfl⟩
  have hfuel : ∀ (L : List Nat), L.Nodup →
      (∀ x ∈ L, ∃ xnd, getNode t x = some xnd) →
      L.length + 1 ≤ t4.core_tree.nodes.length := by
    intro L hnd hocc
    have hlt : ∀ x ∈ L, x < t.core_tree.nodes.length := by
      intro x hx
      obtain ⟨xnd, hxnd⟩ := hocc x hx
      exact getNode_lt hxnd
    rcases hsize4 with ⟨he, _⟩ | ⟨he, hi⟩
    · have := nodup_lt_length_le hnd hlt
      omega
    · have hne : ∀ x ∈ L, x ≠ nid.index := by
        intro x hx
        obtain ⟨xnd, hxnd⟩ := hocc x hx
        exact hocc_ne hxnd
      have := nodup_lt_avoid_length_le hnd hlt hne hi
      omega
  obtain ⟨l0, hcl0, _, hmem0, _, _, hlastf0, _⟩ := children_exact hInv hp
  have hl0 : l0 = [] := by
    by_contra hne
    cases hgl : l0.getLast? with
    | none => exact hne (List.getLast?_eq_none_iff.mp hgl)
    | some e =>
        have h1 := (hlastf0 e hgl).1
        rw [hlc] at h1
        cases h1
  subst hl0
  have hchild_nid4 : childList t4 nid.index = some [] :=
    childList_nil hget4nid rfl
  have hchild_pid4 : childList t4 pid.index = some [nid.index] := by
    refine childList_single hget4pid rfl ?_ ?_
    · rw [childStep_some hget4nid]
      rfl
    · have := getNode_lt hp
      omega
  have hchild_other : ∀ {q : Nat} {qnd : OptNode T}, getNode t q = some qnd →
      q ≠ pid.index →
      ∃ lq, childList t q = some lq ∧ childList t4 q = some lq ∧ lq.Nodup := by
    intro q qnd hq hqp
    obtain ⟨lq, hlq, hlqnd⟩ := inv_childList hInv hq
    have hq4 : getNode t4 q = some qnd := by
      rw [hget4old (hocc_ne hq) hqp]
      exact hq
    have hrelq := childList_rel hq hlq
    refine ⟨lq, hlq, childList_eq_of hq hq4 rfl hlq ?_ ?_, hlqnd⟩
    · intro x hx
      obtain ⟨⟨xnd, hxnd⟩, _⟩ := chain_mem_occ hrelq x hx
      exact (hsteps x (hocc_ne hxnd)).1
    · exact Nat.le_trans (childList_len_le hlq) hlen_le
  have hanc_other : ∀ {x : Nat} {xnd : OptNode T}, getNode t x = some xnd →
      ∃ lx, ancList t x = some lx ∧ ancList t4 x = some lx ∧ lx.Nodup := by
    intro x xnd hx
    obtain ⟨lx, hlx, hlxnd⟩ := inv_ancList hInv hx
    have hrelx := ancList_rel hlx
    refine ⟨lx, hlx, ancList_eq_of hlx ?_ ?_, hlxnd⟩
    · intro y hy
      obtain ⟨⟨ynd, hynd⟩, _⟩ := anc_mem_occ hrelx y hy
      exact (hsteps y (hocc_ne hynd)).2.2
    · exact Nat.le_trans (ancList_len_le hlx) hlen_le
  obtain ⟨lp, hlp, hlp4, hlpnd⟩ := hanc_other hp
  have hanc_nid4 : ancList t4 nid.index = some (nid.index :: lp) := by
    refine ancList_cons ?_ (ancList_rel hlp4) ?_
    · rw [parentStep_some hget4nid]
      rfl
    · refine hfuel lp hlpnd ?_
      intro x hx
      exact (anc_mem_occ (ancList_rel hlp) x hx).1
  have hnid_notin_lp : nid.index ∉ lp := by
    intro hmem
    obtain ⟨⟨xnd, hxnd⟩, _⟩ := anc_mem_occ (ancList_rel hlp) nid.index hmem
    exact hocc_ne hxnd rfl
  obtain ⟨r, hr⟩ : ∃ r, t.core_tree.root = some r := by
    cases hrc : t.core_tree.root with
    | some r => exact ⟨r, rfl⟩
    | none =>
        have h1 := inv_empty hInv hrc (getNode_lt hp)
        rw [hp] at h1
        cases h1
  obtain ⟨rnd, hrnd, hrpar⟩ := inv_root hInv hr
  refine ⟨nid, t4, heq, ⟨?_, ?_, hfree4, ?_⟩, hnew, hcl0, hchild_pid4, hroot4⟩
  · -- root component
    rw [hroot4, hr]
    by_cases hrp : r.index = pid.index
    · have h1 : getNode t pid.index = some rnd := by rw [← hrp]; exact hrnd
      rw [hp] at h1
      cases h1
      have h4 : getNode t4 r.index = some
          { pnd with first_child := some nid, last_child := some nid } := by
        rw [hrp]
        exact hget4pid
      exact someIs_intro h4 hrpar
    · have h4 : getNode t4 r.index = some rnd := by
        rw [hget4old (hocc_ne hrnd) hrp]
        exact hrnd
      exact someIs_intro h4 hrpar
  · -- root-none component
    intro h0
    rw [hroot4, hr] at h0
    cases h0
  · -- slots
    intro i hi
    unfold SlotOk
    refine optHolds_intro ?_
    intro nd4 hnd4
    by_cases hin : i = nid.index
    · subst hin
      rw [hget4nid] at hnd4
      cases hnd4
      refine ⟨?_, nodupSome_intro hchild_nid4 List.nodup_nil,
        nodupSome_intro hanc_nid4 (List.nodup_cons.mpr ⟨hnid_notin_lp, hlpnd⟩)⟩
      refine ⟨?_, Iff.rfl, trivial, trivial, trivial, trivial, ?_, ?_, ?_, ?_⟩
      · show (getNode t4 pid.index).isSome = true
        rw [hget4pid]
        rfl
      · intro h0
        simp [OptNode.new] at h0
      · intro _
        exact someIs_intro hget4pid rfl
      · intro _
        exact someIs_intro hget4pid rfl
      · exact memSome_intro hchild_pid4 (by simp)
    · by_cases hip : i = pid.index
      · subst hip
        rw [hget4pid] at hnd4
        cases hnd4
        obtain ⟨lpp, hlpp, hlpp4, hlppnd⟩ := hanc_other hp
        refine ⟨?_, nodupSome_intro hchild_pid4 (by simp),
          nodupSome_intro hlpp4 hlppnd⟩
        refine ⟨?_, Iff.rfl, ?_, ?_, ?_, ?_, ?_, ?_, ?_, ?_⟩
        · refine optHolds_intro ?_
          intro q hq
          obtain ⟨qnd, hqnd⟩ := inv_parent_occ hInv hp hq
          exact hocc4 hqnd
        · exact someIs_intro hget4nid ⟨rfl, rfl⟩
        · exact someIs_intro hget4nid ⟨rfl, rfl⟩
        · refine optHolds_intro ?_
          intro y hy
          obtain ⟨ynd, hynd, hyprev, hypar⟩ := inv_next hInv hp hy
          have hyne : y.index ≠ pid.index := by
            intro he
            have hyeq : y = (⟨pid.index⟩ : NodeId) := by
              cases y with
              | mk yi => cases he; rfl
            rw [hyeq] at hy
            exact no_self_next hInv hp hy
          have hy4 : getNode t4 y.index = some ynd := by
            rw [hget4old (hocc_ne hynd) hyne]
            exact hynd
          exact someIs_intro hy4 ⟨hyprev, hypar⟩
        · refine optHolds_intro ?_
          intro y hy
          obtain ⟨ynd, hynd, hynext, hypar⟩ := inv_prev hInv hp hy
          have hyne : y.index ≠ pid.index := by
            intro he
            have hyeq : y = (⟨pid.index⟩ : NodeId) := by
              cases y with
              | mk yi => cases he; rfl
            rw [hyeq] at hy
            exact no_self_prev hInv hp hy
          have hy4 : getNode t4 y.index = some ynd := by
            rw [hget4old (hocc_ne hynd) hyne]
            exact hynd
          exact someIs_intro hy4 ⟨hynext, hypar⟩
        · intro h0
          have h1 := inv_parent_none hInv hp h0
          exact ⟨by rw [hroot4]; exact h1.1, h1.2.1, h1.2.2⟩
        · refine optHolds_intro ?_
          intro q hq
          intro hnone
          obtain ⟨qnd, hqnd, hqlc⟩ := inv_last_back hInv hp hq hnone
          have hqne : q.index ≠ pid.index := by
            intro he
            have hqeq : q = (⟨pid.index⟩ : NodeId) := by
              cases q with
              | mk qi => cases he; rfl
            rw [hqeq] at hq
            exact inv_no_self_parent hInv hp hq
          have hq4 : getNode t4 q.index = some qnd := by
            rw [hget4old (hocc_ne hqnd) hqne]
            exact hqnd
          exact someIs_intro hq4 hqlc
        · refine optHolds_intro ?_
          intro q hq
          intro hnone
          obtain ⟨qnd, hqnd, hqfc⟩ := inv_first_back hInv hp hq hnone
          have hqne : q.index ≠ pid.index := by
            intro he
            have hqeq : q = (⟨pid.index⟩ : NodeId) := by
              cases q with
              | mk qi => cases he; rfl
            rw [hqeq] at hq
            exact inv_no_self_parent hInv hp hq
          have hq4 : getNode t4 q.index = some qnd := by
            rw [hget4old (hocc_ne hqnd) hqne]
            exact hqnd
          exact someIs_intro hq4 hqfc
        · refine optHolds_intro ?_
          intro q hq
          obtain ⟨qnd, hqnd⟩ := inv_parent_occ hInv hp hq
          have hqne : q.index ≠ pid.index := by
            intro he
            have hqeq : q = (⟨pid.index⟩ : NodeId) := by
              cases q with
              | mk qi => cases he; rfl
            rw [hqeq] at hq
            exact inv_no_self_parent hInv hp hq
          obtain ⟨lq, hlq, hlq4, _⟩ := hchild_other hqnd hqne
          obtain ⟨lq2, hlq2, hmemq⟩ := inv_mem_childList hInv hp hq
          have : lq2 = lq := by
            rw [hlq] at hlq2
            cases hlq2
            rfl
          subst this
          exact memSome_intro hlq4 hmemq
      · -- old slot, untouched
        rw [hget4old hin hip] at hnd4
        obtain ⟨lqi, hlqi, hlqi4, hlqind⟩ := hchild_other hnd4 hip
        obtain ⟨lxi, hlxi, hlxi4, hlxind⟩ := hanc_other hnd4
        refine ⟨?_, nodupSome_intro hlqi4 hlqind, nodupSome_intro hlxi4 hlxind⟩
        refine ⟨?_, inv_fc_iff_lc hInv hnd4, ?_, ?_, ?_, ?_, ?_, ?_, ?_, ?_⟩
        · refine optHolds_intro ?_
          intro q hq
          obtain ⟨qnd, hqnd⟩ := inv_parent_occ hInv hnd4 hq
          exact hocc4 hqnd
        · refine optHolds_intro ?_
          intro c hc
          obtain ⟨cnd, hcnd, hcpar, hcprev⟩ := inv_fc hInv hnd4 hc
          obtain ⟨cnd4, hcnd4, hc1, hc2, _⟩ := hfields4 hcnd
          refine someIs_intro hcnd4 ⟨?_, ?_⟩
          · rw [hc1]; exact hcpar
          · rw [hc2]; exact hcprev
        · refine optHolds_intro ?_
          intro c hc
          obtain ⟨cnd, hcnd, hcpar, hcnext⟩ := inv_lc hInv hnd4 hc
          obtain ⟨cnd4, hcnd4, hc1, _, hc3⟩ := hfields4 hcnd
          refine someIs_intro hcnd4 ⟨?_, ?_⟩
          · rw [hc1]; exact hcpar
          · rw [hc3]; exact hcnext
        · refine optHolds_intro ?_
          intro y hy
          obtain ⟨ynd, hynd, hyprev, hypar⟩ := inv_next hInv hnd4 hy
          obtain ⟨ynd4, hynd4, hy1, hy2, _⟩ := hfields4 hynd
          refine someIs_intro hynd4 ⟨?_, ?_⟩
          · rw [hy2]; exact hyprev
          · rw [hy1]; exact hypar
        · refine optHolds_intro ?_
          intro y hy
          obtain ⟨ynd, hynd, hynext, hypar⟩ := inv_prev hInv hnd4 hy
          obtain ⟨ynd4, hynd4, hy1, _, hy3⟩ := hfields4 hynd
          refine someIs_intro hynd4 ⟨?_, ?_⟩
          · rw [hy3]; exact hynext
          · rw [hy1]; exact hypar
        · intro h0
          have h1 := inv_parent_none hInv hnd4 h0
          exact ⟨by rw [hroot4]; exact h1.1, h1.2.1, h1.2.2⟩
        · refine optHolds_intro ?_
          intro q hq
          intro hnone
          obtain ⟨qnd, hqnd, hqlc⟩ := inv_last_back hInv hnd4 hq hnone
          have hqne : q.index ≠ pid.index := by
            intro he
            have hqeq : getNode t pid.index = some qnd := by rw [← he]; exact hqnd
            rw [hp] at hqeq
            cases hqeq
            rw [hlc] at hqlc
            cases hqlc
          have hq4 : getNode t4 q.index = some qnd := by
            rw [hget4old (hocc_ne hqnd) hqne]
            exact hqnd
          exact someIs_intro hq4 hqlc
        · refine optHolds_intro ?_
          intro q hq
          intro hnone
          obtain ⟨qnd, hqnd, hqfc⟩ := inv_first_back hInv hnd4 hq hnone
          have hqne : q.index ≠ pid.index := by
            intro he
            have hqeq : getNode t pid.index = some qnd := by rw [← he]; exact hqnd
            rw [hp] at hqeq
            cases hqeq
            rw [(inv_fc_iff_lc hInv hp).mpr hlc] at hqfc
            cases hqfc
          have hq4 : getNode t4 q.index = some qnd := by
            rw [hget4old (hocc_ne hqnd) hqne]
            exact hqnd
          exact someIs_intro hq4 hqfc
        · refine optHolds_intro ?_
          intro q hq
          have hqne : q.index ≠ pid.index := by
            intro he
            have hqeq : q = (⟨pid.index⟩ : NodeId) := by
              cases q with
              | mk qi => cases he; rfl
            rw [hqeq] at hq
            have := (hmem0 i).mpr ⟨_, hnd4, hq⟩
            cases this
          obtain ⟨qnd, hqnd⟩ := inv_parent_occ hInv hnd4 hq
          obtain ⟨lq, hlq, hlq4, _⟩ := hchild_other hqnd hqne
          obtain ⟨lq2, hlq2, hmemq⟩ := inv_mem_childList hInv hnd4 hq
          have : lq2 = lq := by
            rw [hlq] at hlq2
            cases hlq2
            rfl
          subst this
          exact memSome_intro hlq4 hmemq

/-! ### Invariant preservation: insert under a parent with children -/

theorem iun_preserve_some {T : Type} {t : OptTree T} {d : T} {pid last : NodeId}
    {pnd : OptNode T}
    (hInv : TreeInv t) (hp : getNode t pid.index = some pnd)
    (hlc : pnd.last_child = some last) :
    ∃ nid t4 l0,
      t.insert_under_node (OptNode.new d) pid = OpResult.ok nid t4
      ∧ TreeInv t4
      ∧ getNode t nid.index = none
      ∧ childList t pid.index = some l0
      ∧ childList t4 pid.index = some (l0 ++ [nid.index])
      ∧ t4.core_tree.root = t.core_tree.root := by
  obtain ⟨nid, lnd, t4, heq, hnew, hlnd, hlpar, hlnext, hlastpid, hnidpid, hnidlast,
    hdesc, hroot4, hfree4, hsize4⟩ :=
    @iun_some_spec T t (OptNode.new d) pnd pid last hInv hp hlc
  have hocc_ne : ∀ {x : Nat} {xnd : OptNode T}, getNode t x = some xnd → x ≠ nid.index := by
    intro x xnd hx he
    rw [he, hnew] at hx
    cases hx
  have hget4nid : getNode t4 nid.index = some
      { OptNode.new d with parent := some pid, prev_sibling := some last } := by
    rw [hdesc, if_pos rfl]
  have hget4pid : getNode t4 pid.index = some { pnd with last_child := some nid } := by
    rw [hdesc, if_neg (Ne.symm hnidpid), if_pos rfl]
  have hget4last : getNode t4 last.index = some { lnd with next_sibling := some nid } := by
    rw [hdesc, if_neg (Ne.symm hnidlast), if_neg hlastpid, if_pos rfl]
  have hget4old : ∀ {j : Nat}, j ≠ nid.index → j ≠ pid.index → j ≠ last.index →
      getNode t4 j = getNode t j := by
    intro j h1 h2 h3
    rw [hdesc, if_neg h1, if_neg h2, if_neg h3]
  have hlen_le : t.core_tree.nodes.length ≤ t4.core_tree.nodes.length := by
    rcases hsize4 with ⟨he, _⟩ | ⟨he, _⟩ <;> omega
  have hsteps_child : ∀ x, x ≠ nid.index → x ≠ last.index →
      childStep t4 x = childStep t x := by
    intro x hx hxl
    by_cases hxp : x = pid.index
    · subst hxp
      rw [childStep_some hget4pid, childStep_some hp]
    · rw [childStep_congr (hget4old hx hxp hxl)]
  have hsteps_prev : ∀ x, x ≠ nid.index → prevStep t4 x = prevStep t x := by
    intro x hx
    by_cases hxp : x = pid.index
    · subst hxp
      rw [prevStep_some hget4pid, prevStep_some hp]
    · by_cases hxl : x = last.index
      · subst hxl
        rw [prevStep_some hget4last, prevStep_some hlnd]
      · rw [prevStep_congr (hget4old hx hxp hxl)]
  have hsteps_par : ∀ x, x ≠ nid.index → parentStep t4 x = parentStep t x := by
    intro x hx
    by_cases hxp : x = pid.index
    · subst hxp
      rw [parentStep_some hget4pid, parentStep_some hp]
    · by_cases hxl : x = last.index
      · subst hxl
        rw [parentStep_some hget4last, parentStep_some hlnd]
      · rw [parentStep_congr (hget4old hx hxp hxl)]
  have hocc4 : ∀ {x : Nat} {xnd : OptNode T}, getNode t x = some xnd →
      (getNode t4 x).isSome = true := by
    intro x xnd hx
    by_cases hxp : x = pid.index
    · subst hxp; rw [hget4pid]; rfl
    · by_cases hxl : x = last.index
      · subst hxl; rw [hget4last]; rfl
      · rw [hget4old (hocc_ne hx) hxp hxl, hx]; rfl
  have hfields4 : ∀ {x : Nat} {xnd : OptNode T}, getNode t x = some xnd →
      ∃ xnd4, getNode t4 x = some xnd4 ∧ xnd4.parent = xnd.parent
        ∧ xnd4.prev_sibling = xnd.prev_sibling
        ∧ xnd4.first_child = xnd.first_child
        ∧ (x ≠ pid.index → xnd4.last_child = xnd.last_child)
        ∧ (x ≠ last.index → xnd4.next_sibling = xnd.next_sibling) := by
    intro x xnd hx
    by_cases hxp : x = pid.index
    · subst hxp
      rw [hp] at hx
      cases hx
      exact ⟨_, hget4pid, rfl, rfl, rfl, fun h => absurd rfl h, fun _ => rfl⟩
    · by_cases hxl : x = last.index
      · subst hxl
        rw [hlnd] at hx
        cases hx
        exact ⟨_, hget4last, rfl, rfl, rfl, fun _ => rfl, fun h => absurd rfl h⟩
      · exact ⟨xnd, by rw [hget4old (hocc_ne hx) hxp hxl]; exact hx,
          rfl, rfl, rfl, fun _ => rfl, fun _ => rfl⟩
  have hfuel : ∀ (L : List Nat), L.Nodup →
      (∀ x ∈ L, ∃ xnd, getNode t x = some xnd) →
      L.length + 1 ≤ t4.core_tree.nodes.length := by
    intro L hnd hocc
    have hlt : ∀ x ∈ L, x < t.core_tree.nodes.length := by
      intro x hx
      obtain ⟨xnd, hxnd⟩ := hocc x hx
      exact getNode_lt hxnd
    rcases hsize4 with ⟨he, _⟩ | ⟨he, hi⟩
    · have := nodup_lt_length_le hnd hlt
      omega
    · have hne : ∀ x ∈ L, x ≠ nid.index := by
        intro x hx
        obtain ⟨xnd, hxnd⟩ := hocc x hx
        exact hocc_ne hxnd
      have := nodup_lt_avoid_length_le hnd hlt hne hi
      omega
  obtain ⟨l0, hcl0, hl0nd, hmem0, hhead0, hempty0, hlastf0, _⟩ := children_exact hInv hp
  have hl0occ : ∀ x ∈ l0, ∃ xnd, getNode t x = some xnd := by
    intro x hx
    obtain ⟨xnd, hxnd, _⟩ := (hmem0 x).mp hx
    exact ⟨xnd, hxnd⟩
  have hl0last : l0.getLast? = some last.index := by
    cases hgl : l0.getLast? with
    | none =>
        have hl0e : l0 = [] := List.getLast?_eq_none_iff.mp hgl
        have := (hempty0 hl0e).1
        rw [hlc] at this
        cases this
    | some e =>
        have h1 := (hlastf0 e hgl).1
        rw [hlc] at h1
        cases h1
        rfl
  have hnid_notin_l0 : nid.index ∉ l0 := by
    intro hmem
    obtain ⟨xnd, hxnd⟩ := hl0occ nid.index hmem
    exact hocc_ne hxnd rfl
  have hchild_pid4 : childList t4 pid.index = some (l0 ++ [nid.index]) := by
    refine childList_snoc hp hget4pid rfl hcl0 hl0nd hl0last ?_ ?_ ?_ ?_
    · intro x hx hxl
      obtain ⟨xnd, hxnd⟩ := hl0occ x hx
      exact hsteps_child x (hocc_ne hxnd) hxl
    · rw [childStep_some hget4last]
      rfl
    · rw [childStep_some hget4nid]
      rfl
    · exact hfuel l0 hl0nd hl0occ
  have hchild_other : ∀ {q : Nat} {qnd : OptNode T}, getNode t q = some qnd →
      q ≠ pid.index →
      ∃ lq, childList t q = some lq ∧ childList t4 q = some lq ∧ lq.Nodup := by
    intro q qnd hq hqp
    obtain ⟨lq, hlq, hlqnd, hmemq, _, _, _, _⟩ := children_exact hInv hq
    obtain ⟨qnd4, hq4, _, _, hqfc, _, _⟩ := hfields4 hq
    refine ⟨lq, hlq, childList_eq_of hq hq4 hqfc hlq ?_ ?_, hlqnd⟩
    · intro x hx
      obtain ⟨xnd, hxnd, hxpar⟩ := (hmemq x).mp hx
      have hxl : x ≠ last.index := by
        intro he
        subst he
        rw [hlnd] at hxnd
        cases hxnd
        rw [hlpar] at hxpar
        have : pid = (⟨q⟩ : NodeId) := by cases hxpar; rfl
        exact hqp (by rw [this])
      exact hsteps_child x (hocc_ne hxnd) hxl
    · exact Nat.le_trans (childList_len_le hlq) hlen_le
  have hanc_other : ∀ {x : Nat} {xnd : OptNode T}, getNode t x = some xnd →
      ∃ lx, ancList t x = some lx ∧ ancList t4 x = some lx ∧ lx.Nodup := by
    intro x xnd hx
    obtain ⟨lx, hlx, hlxnd⟩ := inv_ancList hInv hx
    have hrelx := ancList_rel hlx
    refine ⟨lx, hlx, ancList_eq_of hlx ?_ ?_, hlxnd⟩
    · intro y hy
      obtain ⟨⟨ynd, hynd⟩, _⟩ := anc_mem_occ hrelx y hy
      exact hsteps_par y (hocc_ne hynd)
    · exact Nat.le_trans (ancList_len_le hlx) hlen_le
  obtain ⟨lp, hlp, hlp4, hlpnd⟩ := hanc_other hp
  have hanc_nid4 : ancList t4 nid.index = some (nid.index :: lp) := by
    refine ancList_cons ?_ (ancList_rel hlp4) ?_
    · rw [parentStep_some hget4nid]
      rfl
    · refine hfuel lp hlpnd ?_
      intro x hx
      exact (anc_mem_occ (ancList_rel hlp) x hx).1
  have hnid_notin_lp : nid.index ∉ lp := by
    intro hmem
    obtain ⟨⟨xnd, hxnd⟩, _⟩ := anc_mem_occ (ancList_rel hlp) nid.index hmem
    exact hocc_ne hxnd rfl
  have hchild_nid4 : childList t4 nid.index = some [] :=
    childList_nil hget4nid rfl
  obtain ⟨r, hr⟩ : ∃ r, t.core_tree.root = some r := by
    cases hrc : t.core_tree.root with
    | some r => exact ⟨r, rfl⟩
    | none =>
        have h1 := inv_empty hInv hrc (getNode_lt hp)
        rw [hp] at h1
        cases h1
  obtain ⟨rnd, hrnd, hrpar⟩ := inv_root hInv hr
  refine ⟨nid, t4, l0, heq, ⟨?_, ?_, hfree4, ?_⟩, hnew, hcl0, hchild_pid4, hroot4⟩
  · rw [hroot4, hr]
    obtain ⟨rnd4, hrnd4, hrp4, _, _, _, _⟩ := hfields4 hrnd
    refine someIs_intro hrnd4 ?_
    rw [hrp4]
    exact hrpar
  · intro h0
    rw [hroot4, hr] at h0
    cases h0
  · intro i hi
    unfold SlotOk
    refine optHolds_intro ?_
    intro nd4 hnd4
    by_cases hin : i = nid.index
    · subst hin
      rw [hget4nid] at hnd4
      cases hnd4
      refine ⟨?_, nodupSome_intro hchild_nid4 List.nodup_nil,
        nodupSome_intro hanc_nid4 (List.nodup_cons.mpr ⟨hnid_notin_lp, hlpnd⟩)⟩
      refine ⟨?_, Iff.rfl, trivial, trivial, trivial, ?_, ?_, ?_, ?_, ?_⟩
      · show (getNode t4 pid.index).isSome = true
        rw [hget4pid]
        rfl
      · refine someIs_intro hget4last ⟨rfl, ?_⟩
        show ({ lnd with next_sibling := some nid } : OptNode T).parent = some pid
        exact hlpar
      · intro h0
        simp [OptNode.new] at h0
      · intro _
        exact someIs_intro hget4pid rfl
      · intro h0
        simp [OptNode.new] at h0
      · refine memSome_intro hchild_pid4 ?_
        simp
    · by_cases hip : i = pid.index
      · subst hip
        rw [hget4pid] at hnd4
        cases hnd4
        refine ⟨?_, nodupSome_intro hchild_pid4
            (by simp [List.nodup_append, hl0nd, hnid_notin_l0]),
          nodupSome_intro hlp4 hlpnd⟩
        obtain ⟨fc0, hfcs⟩ : ∃ fc0, pnd.first_child = some fc0 := by
          cases hf : pnd.first_child with
          | none => rw [(inv_fc_iff_lc hInv hp).mp hf] at hlc; cases hlc
          | some fc0 => exact ⟨fc0, rfl⟩
        refine ⟨?_, ?_, ?_, ?_, ?_, ?_, ?_, ?_, ?_, ?_⟩
        · refine optHolds_intro ?_
          intro q hq
          obtain ⟨qnd, hqnd⟩ := inv_parent_occ hInv hp hq
          exact hocc4 hqnd
        · show pnd.first_child = none ↔ (some nid : Option NodeId) = none
          constructor
          · intro h0
            rw [hfcs] at h0
            cases h0
          · intro h0
            cases h0
        · refine optHolds_intro ?_
          intro c hc
          obtain ⟨cnd, hcnd, hcpar, hcprev⟩ := inv_fc hInv hp hc
          obtain ⟨cnd4, hcnd4, hc1, hc2, _, _, _⟩ := hfields4 hcnd
          refine someIs_intro hcnd4 ⟨?_, ?_⟩
          · rw [hc1]; exact hcpar
          · rw [hc2]; exact hcprev
        · exact someIs_intro hget4nid ⟨rfl, rfl⟩
        · refine optHolds_intro ?_
          intro y hy
          obtain ⟨ynd, hynd, hyprev, hypar⟩ := inv_next hInv hp hy
          obtain ⟨ynd4, hynd4, hy1, hy2, _, _, _⟩ := hfields4 hynd
          refine someIs_intro hynd4 ⟨?_, ?_⟩
          · rw [hy2]; exact hyprev
          · rw [hy1]; exact hypar
        · refine optHolds_intro ?_
          intro y hy
          obtain ⟨ynd, hynd, hynext, hypar⟩ := inv_prev hInv hp hy
          obtain ⟨ynd4, hynd4, hy1, hy2, _, _, hy6⟩ := hfields4 hynd
          have hyne : y.index ≠ last.index := by
            intro he
            have h2 : getNode t last.index = some ynd := by rw [← he]; exact hynd
            rw [hlnd] at h2
            cases h2
            rw [hlnext] at hynext
            cases hynext
          refine someIs_intro hynd4 ⟨?_, ?_⟩
          · rw [hy6 hyne]; exact hynext
          · rw [hy1]; exact hypar
        · intro h0
          have h1 := inv_parent_none hInv hp h0
          exact ⟨by rw [hroot4]; exact h1.1, h1.2.1, h1.2.2⟩
        · refine optHolds_intro ?_
          intro q hq
          intro hnone
          obtain ⟨qnd, hqnd, hqlc⟩ := inv_last_back hInv hp hq hnone
          have hqne : q.index ≠ pid.index := by
            intro he
            have hqeq : q = (⟨pid.index⟩ : NodeId) := by
              cases q with
              | mk qi => cases he; rfl
            rw [hqeq] at hq
            exact inv_no_self_parent hInv hp hq
          obtain ⟨qnd4, hqnd4, _, _, _, hq5, _⟩ := hfields4 hqnd
          refine someIs_intro hqnd4 ?_
          rw [hq5 hqne]
          exact hqlc
        · refine optHolds_intro ?_
          intro q hq
          intro hnone
          obtain ⟨qnd, hqnd, hqfc⟩ := inv_first_back hInv hp hq hnone
          obtain ⟨qnd4, hqnd4, _, _, hq4fc, _, _⟩ := hfields4 hqnd
          refine someIs_intro hqnd4 ?_
          rw [hq4fc]
          exact hqfc
        · refine optHolds_intro ?_
          intro q hq
          have hqne : q.index ≠ pid.index := by
            intro he
            have hqeq : q = (⟨pid.index⟩ : NodeId) := by
              cases q with
              | mk qi => cases he; rfl
            rw [hqeq] at hq
            exact inv_no_self_parent hInv hp hq
          obtain ⟨qnd, hqnd⟩ := inv_parent_occ hInv hp hq
          obtain ⟨lq, hlq, hlq4, _⟩ := hchild_other hqnd hqne
          obtain ⟨lq2, hlq2, hmemq⟩ := inv_mem_childList hInv hp hq
          have : lq2 = lq := by
            rw [hlq] at hlq2
            cases hlq2
            rfl
          subst this
          exact memSome_intro hlq4 hmemq
      · by_cases hil : i = last.index
        · subst hil
          rw [hget4last] at hnd4
          cases hnd4
          obtain ⟨lql, hlql, hlql4, hlqlnd⟩ := hchild_other hlnd hlastpid
          obtain ⟨lxl, hlxl, hlxl4, hlxlnd⟩ := hanc_other hlnd
          refine ⟨?_, nodupSome_intro hlql4 hlqlnd, nodupSome_intro hlxl4 hlxlnd⟩
          refine ⟨?_, ?_, ?_, ?_, ?_, ?_, ?_, ?_, ?_, ?_⟩
          · refine optHolds_intro ?_
            intro q hq
            have hq2 : lnd.parent = some q := hq
            rw [hlpar] at hq2
            cases hq2
            show (getNode t4 pid.index).isSome = true
            rw [hget4pid]
            rfl
          · show lnd.first_child = none ↔ lnd.last_child = none
            exact inv_fc_iff_lc hInv hlnd
          · refine optHolds_intro ?_
            intro c hc
            obtain ⟨cnd, hcnd, hcpar, hcprev⟩ := inv_fc hInv hlnd hc
            obtain ⟨cnd4, hcnd4, hc1, hc2, _, _, _⟩ := hfields4 hcnd
            refine someIs_intro hcnd4 ⟨?_, ?_⟩
            · rw [hc1]; exact hcpar
            · rw [hc2]; exact hcprev
          · refine optHolds_intro ?_
            intro c hc
            obtain ⟨cnd, hcnd, hcpar, hcnext⟩ := inv_lc hInv hlnd hc
            have hcl : c.index ≠ last.index := by
              intro he
              have hceq : c.index = last.index := he
              have h2 : getNode t last.index = some cnd := by rw [← hceq]; exact hcnd
              rw [hlnd] at h2
              cases h2
              have : lnd.parent ≠ some ⟨last.index⟩ := inv_no_self_parent hInv hlnd
              exact this hcpar
            obtain ⟨cnd4, hcnd4, hc1, _, _, _, hc6⟩ := hfields4 hcnd
            refine someIs_intro hcnd4 ⟨?_, ?_⟩
            · rw [hc1]; exact hcpar
            · rw [hc6 hcl]; exact hcnext
          · refine someIs_intro hget4nid ⟨rfl, ?_⟩
            show (some pid : Option NodeId) = ({ lnd with next_sibling := some nid } : OptNode T).parent
            exact hlpar.symm
          · refine optHolds_intro ?_
            intro y hy
            obtain ⟨ynd, hynd, hynext, hypar⟩ := inv_prev hInv hlnd hy
            have hyne : y.index ≠ last.index := by
              intro he
              have hyeq : y = (⟨last.index⟩ : NodeId) := by
                cases y with
                | mk yi => cases he; rfl
              rw [hyeq] at hy
              exact no_self_prev hInv hlnd hy
            obtain ⟨ynd4, hynd4, hy1, _, _, _, hy6⟩ := hfields4 hynd
            refine someIs_intro hynd4 ⟨?_, ?_⟩
            · rw [hy6 hyne]; exact hynext
            · rw [hy1]; exact hypar
          · intro h0
            have h2 : lnd.parent = none := h0
            rw [hlpar] at h2
            cases h2
          · refine optHolds_intro ?_
            intro q hq
            intro hnone
            have h2 : (some nid : Option NodeId) = none := hnone
            cases h2
          · refine optHolds_intro ?_
            intro q hq
            intro hnone
            have hq2 : lnd.parent = some q := hq
            rw [hlpar] at hq2
            cases hq2
            obtain ⟨qnd, hqnd, hqfc⟩ := inv_first_back hInv hlnd hq hnone
            have h2 : getNode t pid.index = some qnd := hqnd
            rw [hp] at h2
            cases h2
            refine someIs_intro hget4pid ?_
            exact hqfc
          · refine optHolds_intro ?_
            intro q hq
            have hq2 : lnd.parent = some q := hq
            rw [hlpar] at hq2
            cases hq2
            refine memSome_intro hchild_pid4 ?_
            have : last.index ∈ l0 := List.mem_of_mem_getLast? hl0last
            simp [this]
        · rw [hget4old hin hip hil] at hnd4
          obtain ⟨lqi, hlqi, hlqi4, hlqind⟩ := hchild_other hnd4 hip
          obtain ⟨lxi, hlxi, hlxi4, hlxind⟩ := hanc_other hnd4
          refine ⟨?_, nodupSome_intro hlqi4 hlqind, nodupSome_intro hlxi4 hlxind⟩
          refine ⟨?_, inv_fc_iff_lc hInv hnd4, ?_, ?_, ?_, ?_, ?_, ?_, ?_, ?_⟩
          · refine optHolds_intro ?_
            intro q hq
            obtain ⟨qnd, hqnd⟩ := inv_parent_occ hInv hnd4 hq
            exact hocc4 hqnd
          · refine optHolds_intro ?_
            intro c hc
            obtain ⟨cnd, hcnd, hcpar, hcprev⟩ := inv_fc hInv hnd4 hc
            obtain ⟨cnd4, hcnd4, hc1, hc2, _, _, _⟩ := hfields4 hcnd
            refine someIs_intro hcnd4 ⟨?_, ?_⟩
            · rw [hc1]; exact hcpar
            · rw [hc2]; exact hcprev
          · refine optHolds_intro ?_
            intro c hc
            obtain ⟨cnd, hcnd, hcpar, hcnext⟩ := inv_lc hInv hnd4 hc
            have hcl : c.index ≠ last.index := by
              intro he
              have h2 : getNode t last.index = some cnd := by rw [← he]; exact hcnd
              rw [hlnd] at h2
              cases h2
              rw [hlpar] at hcpar
              have : pid = (⟨i⟩ : NodeId) := by cases hcpar; rfl
              exact hip (by rw [this])
            obtain ⟨cnd4, hcnd4, hc1, _, _, _, hc6⟩ := hfields4 hcnd
            refine someIs_intro hcnd4 ⟨?_, ?_⟩
            · rw [hc1]; exact hcpar
            · rw [hc6 hcl]; exact hcnext
          · refine optHolds_intro ?_
            intro y hy
            obtain ⟨ynd, hynd, hyprev, hypar⟩ := inv_next hInv hnd4 hy
            obtain ⟨ynd4, hynd4, hy1, hy2, _, _, _⟩ := hfields4 hynd
            refine someIs_intro hynd4 ⟨?_, ?_⟩
            · rw [hy2]; exact hyprev
            · rw [hy1]; exact hypar
          · refine optHolds_intro ?_
            intro y hy
            obtain ⟨ynd, hynd, hynext, hypar⟩ := inv_prev hInv hnd4 hy
            have hyne : y.index ≠ last.index := by
              intro he
              have h2 : getNode t last.index = some ynd := by rw [← he]; exact hynd
              rw [hlnd] at h2
              cases h2
              rw [hlnext] at hynext
              cases hynext
            obtain ⟨ynd4, hynd4, hy1, _, _, _, hy6⟩ := hfields4 hynd
            refine someIs_intro hynd4 ⟨?_, ?_⟩
            · rw [hy6 hyne]; exact hynext
            · rw [hy1]; exact hypar
          · intro h0
            have h1 := inv_parent_none hInv hnd4 h0
            exact ⟨by rw [hroot4]; exact h1.1, h1.2.1, h1.2.2⟩
          · refine optHolds_intro ?_
            intro q hq
            intro hnone
            obtain ⟨qnd, hqnd, hqlc⟩ := inv_last_back hInv hnd4 hq hnone
            have hqne : q.index ≠ pid.index := by
              intro he
              have hqeq : getNode t pid.index = some qnd := by rw [← he]; exact hqnd
              rw [hp] at hqeq
              cases hqeq
              rw [hlc] at hqlc
              have : last = (⟨i⟩ : NodeId) := by cases hqlc; rfl
              exact hil (by rw [this])
            obtain ⟨qnd4, hqnd4, _, _, _, hq5, _⟩ := hfields4 hqnd
            refine someIs_intro hqnd4 ?_
            rw [hq5 hqne]
            exact hqlc
          · refine optHolds_intro ?_
            intro q hq
            intro hnone
            obtain ⟨qnd, hqnd, hqfc⟩ := inv_first_back hInv hnd4 hq hnone
            obtain ⟨qnd4, hqnd4, _, _, hq4fc, _, _⟩ := hfields4 hqnd
            refine someIs_intro hqnd4 ?_
            rw [hq4fc]
            exact hqfc
          · refine optHolds_intro ?_
            intro q hq
            by_cases hqne : q.index = pid.index
            · have hqeq : q = (⟨pid.index⟩ : NodeId) := by
                cases q with
                | mk qi => cases hqne; rfl
              subst hqeq
              have hmem : i ∈ l0 := (hmem0 i).mpr ⟨_, hnd4, hq⟩
              refine memSome_intro hchild_pid4 ?_
              simp [hmem]
            · obtain ⟨qnd, hqnd⟩ := inv_parent_occ hInv hnd4 hq
              obtain ⟨lq, hlq, hlq4, _⟩ := hchild_other hqnd hqne
              obtain ⟨lq2, hlq2, hmemq⟩ := inv_mem_childList hInv hnd4 hq
              have : lq2 = lq := by
                rw [hlq] at hlq2
                cases hlq2
                rfl
              subst this
              exact memSome_intro hlq4 hmemq

/-! ### Invariant preservation: set_root -/

theorem sr_preserve_empty {T : Type} {t : OptTree T} {d : T}
    (hInv : TreeInv t) (hroot : t.core_tree.root = none) :
    ∃ nid t2,
      t.set_root (OptNode.new d) = OpResult.ok nid t2
      ∧ TreeInv t2
      ∧ getNode t2 nid.index = some (OptNode.new d)
      ∧ t2.core_tree.root = some nid := by
  obtain ⟨nid, t2, heq, hnew, hdesc, hroot2, hfree2, hsize2⟩ :=
    @sr_none_spec T t (OptNode.new d) hInv hroot
  have hget2nid : getNode t2 nid.index = some (OptNode.new d) := by
    rw [hdesc, if_pos rfl]
  have hnid_lt : nid.index < t2.core_tree.nodes.length := by
    rcases hsize2 with ⟨he, hi⟩ | ⟨he, hi⟩ <;> omega
  have hold_none : ∀ j, j ≠ nid.index → getNode t2 j = none := by
    intro j hj
    rw [hdesc, if_neg hj]
    by_cases hlt : j < t.core_tree.nodes.length
    · exact inv_empty hInv hroot hlt
    · exact getNode_oob (Nat.le_of_not_lt hlt)
  have hchild_nid2 : childList t2 nid.index = some [] :=
    childList_nil hget2nid rfl
  have hanc_nid2 : ancList t2 nid.index = some [nid.index] := by
    unfold ancList
    refine walkRel_fuel (WalkRel.cons ?_ WalkRel.nil) (by simp only [List.length_cons, List.length_nil]; omega)
    rw [parentStep_some hget2nid]
    rfl
  refine ⟨nid, t2, heq, ⟨?_, ?_, hfree2, ?_⟩, hget2nid, hroot2⟩
  · rw [hroot2]
    exact someIs_intro hget2nid rfl
  · intro h0
    rw [hroot2] at h0
    cases h0
  · intro i hi
    unfold SlotOk
    refine optHolds_intro ?_
    intro nd2 hnd2
    by_cases hin : i = nid.index
    · subst hin
      rw [hget2nid] at hnd2
      cases hnd2
      refine ⟨?_, nodupSome_intro hchild_nid2 List.nodup_nil,
        nodupSome_intro hanc_nid2 (by simp)⟩
      refine ⟨trivial, Iff.rfl, trivial, trivial, trivial, trivial, ?_, trivial,
        trivial, trivial⟩
      intro _
      refine ⟨?_, rfl, rfl⟩
      rw [hroot2]
    · rw [hold_none i hin] at hnd2
      cases hnd2

theorem sr_preserve_root {T : Type} {t : OptTree T} {d : T} {cr : NodeId}
    (hInv : TreeInv t) (hroot : t.core_tree.root = some cr) :
    ∃ nid crnd t3,
      t.set_root (OptNode.new d) = OpResult.ok nid t3
      ∧ TreeInv t3
      ∧ getNode t cr.index = some crnd
      ∧ getNode t3 cr.index = some { crnd with parent := some nid }
      ∧ getNode t3 nid.index
          = some { OptNode.new d with first_child := some cr, last_child := some cr }
      ∧ t3.core_tree.root = some nid
      ∧ childList t3 nid.index = some [cr.index]
      ∧ (∀ {q : Nat} {qnd : OptNode T}, getNode t q = some qnd →
          ∃ lq, childList t q = some lq ∧ childList t3 q = some lq) := by
  obtain ⟨nid, crnd, t3, heq, hnew, hcrnd, hcrpar, hnidcr, hdesc, hroot3, hfree3, hsize3⟩ :=
    @sr_some_spec T t (OptNode.new d) cr hInv hroot
  obtain ⟨hcrprev, hcrnext⟩ : crnd.prev_sibling = none ∧ crnd.next_sibling = none := by
    have := inv_parent_none hInv hcrnd hcrpar
    exact ⟨this.2.1, this.2.2⟩
  have hocc_ne : ∀ {x : Nat} {xnd : OptNode T}, getNode t x = some xnd → x ≠ nid.index := by
    intro x xnd hx he
    rw [he, hnew] at hx
    cases hx
  have hget3nid : getNode t3 nid.index
      = some { OptNode.new d with first_child := some cr, last_child := some cr } := by
    rw [hdesc, if_pos rfl]
  have hget3cr : getNode t3 cr.index = some { crnd with parent := some nid } := by
    rw [hdesc, if_neg (Ne.symm hnidcr), if_pos rfl]
  have hget3old : ∀ {j : Nat}, j ≠ nid.index → j ≠ cr.index →
      getNode t3 j = getNode t j := by
    intro j h1 h2
    rw [hdesc, if_neg h1, if_neg h2]
  have hlen_le : t.core_tree.nodes.length ≤ t3.core_tree.nodes.length := by
    rcases hsize3 with ⟨he, _⟩ | ⟨he, _⟩ <;> omega
  have hsteps_child : ∀ x, x ≠ nid.index → childStep t3 x = childStep t x := by
    intro x hx
    by_cases hxc : x = cr.index
    · subst hxc
      rw [childStep_some hget3cr, childStep_some hcrnd]
    · rw [childStep_congr (hget3old hx hxc)]
  have hsteps_prev : ∀ x, x ≠ nid.index → prevStep t3 x = prevStep t x := by
    intro x hx
    by_cases hxc : x = cr.index
    · subst hxc
      rw [prevStep_some hget3cr, prevStep_some hcrnd]
    · rw [prevStep_congr (hget3old hx hxc)]
  have hsteps_par : ∀ x, x ≠ nid.index → x ≠ cr.index →
      parentStep t3 x = parentStep t x := by
    intro x hx hxc
    rw [parentStep_congr (hget3old hx hxc)]
  have hocc3 : ∀ {x : Nat} {xnd : OptNode T}, getNode t x = some xnd →
      (getNode t3 x).isSome = true := by
    intro x xnd hx
    by_cases hxc : x = cr.index
    · subst hxc; rw [hget3cr]; rfl
    · rw [hget3old (hocc_ne hx) hxc, hx]; rfl
  have hfields3 : ∀ {x : Nat} {xnd : OptNode T}, getNode t x = some xnd →
      ∃ xnd3, getNode t3 x = some xnd3
        ∧ (x ≠ cr.index → xnd3.parent = xnd.parent)
        ∧ xnd3.prev_sibling = xnd.prev_sibling
        ∧ xnd3.next_sibling = xnd.next_sibling
        ∧ xnd3.first_child = xnd.first_child
        ∧ xnd3.last_child = xnd.last_child := by
    intro x xnd hx
    by_cases hxc : x = cr.index
    · subst hxc
      rw [hcrnd] at hx
      cases hx
      exact ⟨_, hget3cr, fun h => absurd rfl h, rfl, rfl, rfl, rfl⟩
    · exact ⟨xnd, by rw [hget3old (hocc_ne hx) hxc]; exact hx,
        fun _ => rfl, rfl, rfl, rfl, rfl⟩
  have hfuel : ∀ (L : List Nat), L.Nodup →
      (∀ x ∈ L, ∃ xnd, getNode t x = some xnd) →
      L.length + 1 ≤ t3.core_tree.nodes.length := by
    intro L hnd hocc
    have hlt : ∀ x ∈ L, x < t.core_tree.nodes.length := by
      intro x hx
      obtain ⟨xnd, hxnd⟩ := hocc x hx
      exact getNode_lt hxnd
    rcases hsize3 with ⟨he, _⟩ | ⟨he, hi⟩
    · have := nodup_lt_length_le hnd hlt
      omega
    · have hne : ∀ x ∈ L, x ≠ nid.index := by
        intro x hx
        obtain ⟨xnd, hxnd⟩ := hocc x hx
        exact hocc_ne hxnd
      have := nodup_lt_avoid_length_le hnd hlt hne hi
      omega
  have hchild_other : ∀ {q : Nat} {qnd : OptNode T}, getNode t q = some qnd →
      ∃ lq, childList t q = some lq ∧ childList t3 q = some lq ∧ lq.Nodup := by
    intro q qnd hq
    obtain ⟨lq, hlq, hlqnd⟩ := inv_childList hInv hq
    obtain ⟨qnd3, hq3, _, _, _, hqfc, _⟩ := hfields3 hq
    have hrelq := childList_rel hq hlq
    refine ⟨lq, hlq, childList_eq_of hq hq3 hqfc hlq ?_ ?_, hlqnd⟩
    · intro x hx
      obtain ⟨⟨xnd, hxnd⟩, _⟩ := chain_mem_occ hrelq x hx
      exact hsteps_child x (hocc_ne hxnd)
    · exact Nat.le_trans (childList_len_le hlq) hlen_le
  have hanc_old : ∀ {x : Nat} {xnd : OptNode T}, getNode t x = some xnd →
      ∃ lx, ancList t x = some lx ∧ lx.Nodup ∧ nid.index ∉ lx
        ∧ ancList t3 x = some (lx ++ [nid.index]) := by
    intro x xnd hx
    obtain ⟨lx, hlx, hlxnd⟩ := inv_ancList hInv hx
    have hrelx := ancList_rel hlx
    have hnotin : nid.index ∉ lx := by
      intro hmem
      obtain ⟨⟨ynd, hynd⟩, _⟩ := anc_mem_occ hrelx nid.index hmem
      exact hocc_ne hynd rfl
    obtain ⟨e, hle, hse⟩ := walkRel_last hrelx
    obtain ⟨end_nd, hend, hoe⟩ := parentStep_isSome hse
    have hendpar : end_nd.parent = none := by
      cases hep : end_nd.parent with
      | none => rfl
      | some q =>
          rw [hep] at hoe
          simp only [oIdx, Option.map_some'] at hoe
          cases hoe
    have hecr : e = cr.index := by
      have h1 := (inv_parent_none hInv hend hendpar).1
      rw [hroot] at h1
      have h2 : cr = (⟨e⟩ : NodeId) := by cases h1; rfl
      rw [h2]
    subst hecr
    refine ⟨lx, hlx, hlxnd, hnotin, ?_⟩
    refine ancList_snoc hlx hlxnd hle ?_ ?_ ?_ ?_
    · intro y hy hyne
      obtain ⟨⟨ynd, hynd⟩, _⟩ := anc_mem_occ hrelx y hy
      exact hsteps_par y (hocc_ne hynd) hyne
    · rw [parentStep_some hget3cr]
      rfl
    · rw [parentStep_some hget3nid]
      rfl
    · exact hfuel lx hlxnd fun y hy => (anc_mem_occ hrelx y hy).1
  have hnid_lt : nid.index < t3.core_tree.nodes.length := by
    rcases hsize3 with ⟨he, hi⟩ | ⟨he, hi⟩ <;> omega
  have hchild_nid3 : childList t3 nid.index = some [cr.index] := by
    refine childList_single hget3nid rfl ?_ ?_
    · rw [childStep_some hget3cr]
      show some (oIdx crnd.next_sibling) = some none
      rw [hcrnext]
      rfl
    · omega
  have hanc_nid3 : ancList t3 nid.index = some [nid.index] := by
    unfold ancList
    refine walkRel_fuel (WalkRel.cons ?_ WalkRel.nil) (by simp only [List.length_cons, List.length_nil]; omega)
    rw [parentStep_some hget3nid]
    rfl
  refine ⟨nid, crnd, t3, heq, ⟨?_, ?_, hfree3, ?_⟩, hcrnd, hget3cr, hget3nid, hroot3,
    hchild_nid3, ?_⟩
  · rw [hroot3]
    exact someIs_intro hget3nid rfl
  · intro h0
    rw [hroot3] at h0
    cases h0
  · intro i hi
    unfold SlotOk
    refine optHolds_intro ?_
    intro nd3 hnd3
    by_cases hin : i = nid.index
    · subst hin
      rw [hget3nid] at hnd3
      cases hnd3
      refine ⟨?_, nodupSome_intro hchild_nid3 (by simp),
        nodupSome_intro hanc_nid3 (by simp)⟩
      refine ⟨trivial, Iff.rfl, ?_, ?_, trivial, trivial, ?_, trivial, trivial, trivial⟩
      · refine someIs_intro hget3cr ⟨rfl, ?_⟩
        show crnd.prev_sibling = none
        exact hcrprev
      · refine someIs_intro hget3cr ⟨rfl, ?_⟩
        show crnd.next_sibling = none
        exact hcrnext
      · intro _
        refine ⟨?_, rfl, rfl⟩
        rw [hroot3]
    · by_cases hic : i = cr.index
      · subst hic
        rw [hget3cr] at hnd3
        cases hnd3
        obtain ⟨lqc, hlqc, hlqc3, hlqcnd⟩ := hchild_other hcrnd
        obtain ⟨lxc, hlxc, hlxcnd, hnidlxc, hlxc3⟩ := hanc_old hcrnd
        refine ⟨?_, nodupSome_intro hlqc3 hlqcnd,
          nodupSome_intro hlxc3 (by simp [List.nodup_append, hlxcnd, hnidlxc])⟩
        refine ⟨?_, ?_, ?_, ?_, ?_, ?_, ?_, ?_, ?_, ?_⟩
        · show (getNode t3 nid.index).isSome = true
          rw [hget3nid]
          rfl
        · show crnd.first_child = none ↔ crnd.last_child = none
          exact inv_fc_iff_lc hInv hcrnd
        · refine optHolds_intro ?_
          intro c hc
          obtain ⟨cnd, hcnd, hcpar, hcprev⟩ := inv_fc hInv hcrnd hc
          have hcne : c.index ≠ cr.index := by
            intro he
            have h2 : getNode t cr.index = some cnd := by rw [← he]; exact hcnd
            rw [hcrnd] at h2
            cases h2
            rw [hcrpar] at hcpar
            cases hcpar
          obtain ⟨cnd3, hcnd3, hc1, hc2, _, _, _⟩ := hfields3 hcnd
          refine someIs_intro hcnd3 ⟨?_, ?_⟩
          · rw [hc1 hcne]; exact hcpar
          · rw [hc2]; exact hcprev
        · refine optHolds_intro ?_
          intro c hc
          obtain ⟨cnd, hcnd, hcpar, hcnext⟩ := inv_lc hInv hcrnd hc
          have hcne : c.index ≠ cr.index := by
            intro he
            have h2 : getNode t cr.index = some cnd := by rw [← he]; exact hcnd
            rw [hcrnd] at h2
            cases h2
            rw [hcrpar] at hcpar
            cases hcpar
          obtain ⟨cnd3, hcnd3, hc1, _, hc3, _, _⟩ := hfields3 hcnd
          refine someIs_intro hcnd3 ⟨?_, ?_⟩
          · rw [hc1 hcne]; exact hcpar
          · rw [hc3]; exact hcnext
        · refine optHolds_intro ?_
          intro y hy
          have h2 : crnd.next_sibling = some y := hy
          rw [hcrnext] at h2
          cases h2
        · refine optHolds_intro ?_
          intro y hy
          have h2 : crnd.prev_sibling = some y := hy
          rw [hcrprev] at h2
          cases h2
        · intro h0
          have h2 : (some nid : Option NodeId) = none := h0
          cases h2
        · intro hnone
          exact someIs_intro hget3nid rfl
        · intro hnone
          exact someIs_intro hget3nid rfl
        · exact memSome_intro hchild_nid3 (by simp)
      · rw [hget3old hin hic] at hnd3
        obtain ⟨lqi, hlqi, hlqi3, hlqind⟩ := hchild_other hnd3
        obtain ⟨lxi, hlxi, hlxind, hnidlxi, hlxi3⟩ := hanc_old hnd3
        refine ⟨?_, nodupSome_intro hlqi3 hlqind,
          nodupSome_intro hlxi3 (by simp [List.nodup_append, hlxind, hnidlxi])⟩
        refine ⟨?_, inv_fc_iff_lc hInv hnd3, ?_, ?_, ?_, ?_, ?_, ?_, ?_, ?_⟩
        · refine optHolds_intro ?_
          intro q hq
          obtain ⟨qnd, hqnd⟩ := inv_parent_occ hInv hnd3 hq
          exact hocc3 hqnd
        · refine optHolds_intro ?_
          intro c hc
          obtain ⟨cnd, hcnd, hcpar, hcprev⟩ := inv_fc hInv hnd3 hc
          have hcne : c.index ≠ cr.index := by
            intro he
            have h2 : getNode t cr.index = some cnd := by rw [← he]; exact hcnd
            rw [hcrnd] at h2
            cases h2
            rw [hcrpar] at hcpar
            cases hcpar
          obtain ⟨cnd3, hcnd3, hc1, hc2, _, _, _⟩ := hfields3 hcnd
          refine someIs_intro hcnd3 ⟨?_, ?_⟩
          · rw [hc1 hcne]; exact hcpar
          · rw [hc2]; exact hcprev
        · refine optHolds_intro ?_
          intro c hc
          obtain ⟨cnd, hcnd, hcpar, hcnext⟩ := inv_lc hInv hnd3 hc
          have hcne : c.index ≠ cr.index := by
            intro he
            have h2 : getNode t cr.index = some cnd := by rw [← he]; exact hcnd
            rw [hcrnd] at h2
            cases h2
            rw [hcrpar] at hcpar
            cases hcpar
          obtain ⟨cnd3, hcnd3, hc1, _, hc3, _, _⟩ := hfields3 hcnd
          refine someIs_intro hcnd3 ⟨?_, ?_⟩
          · rw [hc1 hcne]; exact hcpar
          · rw [hc3]; exact hcnext
        · refine optHolds_intro ?_
          intro y hy
          obtain ⟨ynd, hynd, hyprev, hypar⟩ := inv_next hInv hnd3 hy
          have hyne : y.index ≠ cr.index := by
            intro he
            have h2 : getNode t cr.index = some ynd := by rw [← he]; exact hynd
            rw [hcrnd] at h2
            cases h2
            rw [hcrpar] at hypar
            have h3 := inv_parent_none hInv hnd3 hypar.symm
            rw [h3.2.2] at hy
            cases hy
          obtain ⟨ynd3, hynd3, hy1, hy2, _, _, _⟩ := hfields3 hynd
          refine someIs_intro hynd3 ⟨?_, ?_⟩
          · rw [hy2]; exact hyprev
          · rw [hy1 hyne]; exact hypar
        · refine optHolds_intro ?_
          intro y hy
          obtain ⟨ynd, hynd, hynext, hypar⟩ := inv_prev hInv hnd3 hy
          have hyne : y.index ≠ cr.index := by
            intro he
            have h2 : getNode t cr.index = some ynd := by rw [← he]; exact hynd
            rw [hcrnd] at h2
            cases h2
            rw [hcrpar] at hypar
            have h3 := inv_parent_none hInv hnd3 hypar.symm
            rw [h3.2.1] at hy
            cases hy
          obtain ⟨ynd3, hynd3, hy1, _, hy3, _, _⟩ := hfields3 hynd
          refine someIs_intro hynd3 ⟨?_, ?_⟩
          · rw [hy3]; exact hynext
          · rw [hy1 hyne]; exact hypar
        · intro h0
          have h1 := (inv_parent_none hInv hnd3 h0).1
          rw [hroot] at h1
          have h2 : cr = (⟨i⟩ : NodeId) := by cases h1; rfl
          exact absurd (by rw [h2]) hic
        · refine optHolds_intro ?_
          intro q hq
          intro hnone
          obtain ⟨qnd, hqnd, hqlc⟩ := inv_last_back hInv hnd3 hq hnone
          obtain ⟨qnd3, hqnd3, _, _, _, _, hq6⟩ := hfields3 hqnd
          refine someIs_intro hqnd3 ?_
          rw [hq6]
          exact hqlc
        · refine optHolds_intro ?_
          intro q hq
          intro hnone
          obtain ⟨qnd, hqnd, hqfc⟩ := inv_first_back hInv hnd3 hq hnone
          obtain ⟨qnd3, hqnd3, _, _, _, hq5, _⟩ := hfields3 hqnd
          refine someIs_intro hqnd3 ?_
          rw [hq5]
          exact hqfc
        · refine optHolds_intro ?_
          intro q hq
          obtain ⟨qnd, hqnd⟩ := inv_parent_occ hInv hnd3 hq
          obtain ⟨lq, hlq, hlq3, _⟩ := hchild_other hqnd
          obtain ⟨lq2, hlq2, hmemq⟩ := inv_mem_childList hInv hnd3 hq
          have : lq2 = lq := by
            rw [hlq] at hlq2
            cases hlq2
            rfl
          subst this
          exact memSome_intro hlq3 hmemq
  · intro q qnd hq
    obtain ⟨lq, hlq, hlq3, _⟩ := hchild_other hq
    exact ⟨lq, hlq, hlq3⟩

/-! ### Invariant preservation: data writes, and reachability -/

theorem updateData_preserve {T : Type} {t : OptTree T} (hInv : TreeInv t)
    (id : NodeId) (d : T) : TreeInv (t.updateData id d) := by
  have hdesc : ∀ j, getNode (t.updateData id d) j =
      if j = id.index then (getNode t j).map (fun nd => { nd with data := d })
      else getNode t j := by
    intro j
    unfold OptTree.updateData
    exact getNode_modify t id _ j
  have hlen : (t.updateData id d).core_tree.nodes.length = t.core_tree.nodes.length := by
    unfold OptTree.updateData
    exact modifyNode_len t id _
  have hroot2 : (t.updateData id d).core_tree.root = t.core_tree.root := by
    unfold OptTree.updateData
    exact modifyNode_root t id _
  have hfields : ∀ {x : Nat} {xnd : OptNode T}, getNode t x = some xnd →
      ∃ xnd2, getNode (t.updateData id d) x = some xnd2 ∧ xnd2.parent = xnd.parent
        ∧ xnd2.first_child = xnd.first_child ∧ xnd2.last_child = xnd.last_child
        ∧ xnd2.prev_sibling = xnd.prev_sibling
        ∧ xnd2.next_sibling = xnd.next_sibling := by
    intro x xnd hx
    rw [hdesc x]
    by_cases hxi : x = id.index
    · rw [if_pos hxi, hx]
      exact ⟨_, rfl, rfl, rfl, rfl, rfl, rfl⟩
    · rw [if_neg hxi, hx]
      exact ⟨xnd, rfl, rfl, rfl, rfl, rfl, rfl⟩
  have hback : ∀ {x : Nat} {xnd2 : OptNode T}, getNode (t.updateData id d) x = some xnd2 →
      ∃ xnd, getNode t x = some xnd ∧ xnd2.parent = xnd.parent
        ∧ xnd2.first_child = xnd.first_child ∧ xnd2.last_child = xnd.last_child
        ∧ xnd2.prev_sibling = xnd.prev_sibling
        ∧ xnd2.next_sibling = xnd.next_sibling := by
    intro x xnd2 hx2
    rw [hdesc x] at hx2
    by_cases hxi : x = id.index
    · rw [if_pos hxi] at hx2
      cases hx : getNode t x with
      | none => rw [hx] at hx2; cases hx2
      | some xnd =>
          rw [hx] at hx2
          cases hx2
          exact ⟨xnd, rfl, rfl, rfl, rfl, rfl, rfl⟩
    · rw [if_neg hxi] at hx2
      exact ⟨xnd2, hx2, rfl, rfl, rfl, rfl, rfl⟩
  have hsteps : ∀ x, childStep (t.updateData id d) x = childStep t x
      ∧ prevStep (t.updateData id d) x = prevStep t x
      ∧ parentStep (t.updateData id d) x = parentStep t x := by
    intro x
    cases hx : getNode t x with
    | none =>
        have hx2 : getNode (t.updateData id d) x = none := by
          rw [hdesc x]
          by_cases hxi : x = id.index
          · rw [if_pos hxi, hx]; rfl
          · rw [if_neg hxi, hx]
        unfold childStep prevStep parentStep
        rw [hx, hx2]
        exact ⟨rfl, rfl, rfl⟩
    | some xnd =>
        obtain ⟨xnd2, hx2, hparx, _, _, hprev, hnext⟩ := hfields hx
        refine ⟨?_, ?_, ?_⟩
        · rw [childStep_some hx2, childStep_some hx, hnext]
        · rw [prevStep_some hx2, prevStep_some hx, hprev]
        · rw [parentStep_some hx2, parentStep_some hx, hparx]
  have hchild_eq : ∀ {q : Nat} {qnd : OptNode T}, getNode t q = some qnd →
      childList (t.updateData id d) q = childList t q := by
    intro q qnd hq
    obtain ⟨lq, hlq, _⟩ := inv_childList hInv hq
    obtain ⟨qnd2, hq2, _, hqfc, _, _, _⟩ := hfields hq
    rw [hlq]
    refine childList_eq_of hq hq2 hqfc hlq ?_ ?_
    · intro x hx
      exact (hsteps x).1
    · rw [hlen]
      exact childList_len_le hlq
  have hanc_eq : ∀ {x : Nat} {xnd : OptNode T}, getNode t x = some xnd →
      ancList (t.updateData id d) x = ancList t x := by
    intro x xnd hx
    obtain ⟨lx, hlx, _⟩ := inv_ancList hInv hx
    rw [hlx]
    refine ancList_eq_of hlx ?_ ?_
    · intro y hy
      exact (hsteps y).2.2
    · rw [hlen]
      exact ancList_len_le hlx
  refine ⟨?_, ?_, ?_, ?_⟩
  · rw [hroot2]
    refine optHolds_intro ?_
    intro r hr
    obtain ⟨rnd, hrnd, hrpar⟩ := inv_root hInv hr
    obtain ⟨rnd2, hrnd2, hrp2, _, _, _, _⟩ := hfields hrnd
    refine someIs_intro hrnd2 ?_
    rw [hrp2]
    exact hrpar
  · intro h0 i hi
    rw [hroot2] at h0
    rw [hlen] at hi
    have h1 := inv_empty hInv h0 hi
    rw [hdesc i]
    by_cases hxi : i = id.index
    · rw [if_pos hxi, h1]; rfl
    · rw [if_neg hxi, h1]; rfl
  · unfold OptTree.updateData
    exact freeOk_modify (inv_free hInv) _ _
  · intro i hi
    unfold SlotOk
    refine optHolds_intro ?_
    intro nd2 hnd2
    obtain ⟨nd, hnd, hpar, hfc, hlcf, hprev, hnext⟩ := hback hnd2
    refine ⟨?_, ?_, ?_⟩
    · refine ⟨?_, ?_, ?_, ?_, ?_, ?_, ?_, ?_, ?_, ?_⟩
      · rw [hpar]
        refine optHolds_intro ?_
        intro q hq
        obtain ⟨qnd, hqnd⟩ := inv_parent_occ hInv hnd hq
        obtain ⟨qnd2, hqnd2, _, _, _, _, _⟩ := hfields hqnd
        rw [hqnd2]
        rfl
      · rw [hfc, hlcf]
        exact inv_fc_iff_lc hInv hnd
      · rw [hfc]
        refine optHolds_intro ?_
        intro c hc
        obtain ⟨cnd, hcnd, hcpar, hcprev⟩ := inv_fc hInv hnd hc
        obtain ⟨cnd2, hcnd2, hc1, _, _, hc4, _⟩ := hfields hcnd
        refine someIs_intro hcnd2 ⟨?_, ?_⟩
        · rw [hc1]; exact hcpar
        · rw [hc4]; exact hcprev
      · rw [hlcf]
        refine optHolds_intro ?_
        intro c hc
        obtain ⟨cnd, hcnd, hcpar, hcnext⟩ := inv_lc hInv hnd hc
        obtain ⟨cnd2, hcnd2, hc1, _, _, _, hc5⟩ := hfields hcnd
        refine someIs_intro hcnd2 ⟨?_, ?_⟩
        · rw [hc1]; exact hcpar
        · rw [hc5]; exact hcnext
      · rw [hnext, hpar]
        refine optHolds_intro ?_
        intro y hy
        obtain ⟨ynd, hynd, hyprev, hypar⟩ := inv_next hInv hnd hy
        obtain ⟨ynd2, hynd2, hy1, _, _, hy4, _⟩ := hfields hynd
        refine someIs_intro hynd2 ⟨?_, ?_⟩
        · rw [hy4]; exact hyprev
        · rw [hy1]; exact hypar
      · rw [hprev, hpar]
        refine optHolds_intro ?_
        intro y hy
        obtain ⟨ynd, hynd, hynext, hypar⟩ := inv_prev hInv hnd hy
        obtain ⟨ynd2, hynd2, hy1, _, _, _, hy5⟩ := hfields hynd
        refine someIs_intro hynd2 ⟨?_, ?_⟩
        · rw [hy5]; exact hynext
        · rw [hy1]; exact hypar
      · rw [hpar, hprev, hnext]
        intro h0
        have h1 := inv_parent_none hInv hnd h0
        exact ⟨by rw [hroot2]; exact h1.1, h1.2.1, h1.2.2⟩
      · rw [hpar, hnext]
        refine optHolds_intro ?_
        intro q hq
        intro hnone
        obtain ⟨qnd, hqnd, hqlc⟩ := inv_last_back hInv hnd hq hnone
        obtain ⟨qnd2, hqnd2, _, _, hq3, _, _⟩ := hfields hqnd
        refine someIs_intro hqnd2 ?_
        rw [hq3]
        exact hqlc
      · rw [hpar, hprev]
        refine optHolds_intro ?_
        intro q hq
        intro hnone
        obtain ⟨qnd, hqnd, hqfc⟩ := inv_first_back hInv hnd hq hnone
        obtain ⟨qnd2, hqnd2, _, hq2, _, _, _⟩ := hfields hqnd
        refine someIs_intro hqnd2 ?_
        rw [hq2]
        exact hqfc
      · rw [hpar]
        refine optHolds_intro ?_
        intro q hq
        obtain ⟨qnd, hqnd⟩ := inv_parent_occ hInv hnd hq
        obtain ⟨lq, hlq, hmemq⟩ := inv_mem_childList hInv hnd hq
        refine memSome_intro ?_ hmemq
        rw [hchild_eq hqnd]
        exact hlq
    · obtain ⟨lq, hlq, hlqnd⟩ := inv_childList hInv hnd
      refine nodupSome_intro ?_ hlqnd
      rw [hchild_eq hnd]
      exact hlq
    · obtain ⟨lx, hlx, hlxnd⟩ := inv_ancList hInv hnd
      refine nodupSome_intro ?_ hlxnd
      rw [hanc_eq hnd]
      exact hlx

theorem treeInv_new {T : Type} : TreeInv (OptTree.new : OptTree T) := by
  refine ⟨trivial, ?_, ⟨by simp [OptTree.new], ?_⟩, ?_⟩
  · intro _ i hi
    simp [OptTree.new] at hi
  · intro fid hfid
    simp [OptTree.new] at hfid
  · intro i hi
    simp [OptTree.new] at hi

/-- Every state reachable by the public operations satisfies the full
structural invariant. -/
theorem reachable_inv {T : Type} {t : OptTree T} (h : Reachable t) : TreeInv t := by
  induction h with
  | new => exact treeInv_new
  | @insert t t' d b id hreach heq ih =>
      cases b with
      | UnderNode pid =>
          cases hv : t.core_tree.validate_node_id pid with
          | false =>
              rw [OptTree.insert, hv] at heq
              simp at heq
          | true =>
              obtain ⟨pnd, hp⟩ := validate_iff.mp hv
              rw [insert_under_eq hp] at heq
              cases hlco : pnd.last_child with
              | none =>
                  obtain ⟨nid, t4, heq2, hinv4, _, _, _, _⟩ :=
                    iun_preserve_none ih hp hlco
                  rw [heq2] at heq
                  cases heq
                  exact hinv4
              | some last =>
                  obtain ⟨nid, t4, l0, heq2, hinv4, _, _, _, _⟩ :=
                    iun_preserve_some ih hp hlco
                  rw [heq2] at heq
                  cases heq
                  exact hinv4
      | AsRoot =>
          rw [insert_asroot_eq] at heq
          cases hrc : t.core_tree.root with
          | none =>
              obtain ⟨nid, t2, heq2, hinv2, _, _⟩ := sr_preserve_empty ih hrc
              rw [heq2] at heq
              cases heq
              exact hinv2
          | some cr =>
              obtain ⟨nid, crnd, t3, heq2, hinv3, _, _, _, _, _, _⟩ :=
                sr_preserve_root ih hrc
              rw [heq2] at heq
              cases heq
              exact hinv3
  | update id d hreach ih =>
      exact updateData_preserve ih id d

/-- Combined insert-under fact for caller-constructed nodes: success,
invariant preservation, and the child chain growing by exactly the new
handle at the end. -/
theorem iun_combined {T : Type} {t : OptTree T} {d : T} {pid : NodeId} {pnd : OptNode T}
    (hInv : TreeInv t) (hp : getNode t pid.index = some pnd) :
    ∃ nid t4 l0,
      t.insert (OptNode.new d) (InsertBehavior.UnderNode pid) = OpResult.ok nid t4
      ∧ TreeInv t4
      ∧ getNode t nid.index = none
      ∧ childList t pid.index = some l0
      ∧ childList t4 pid.index = some (l0 ++ [nid.index])
      ∧ (pnd.last_child = none →
          getNode t4 pid.index
            = some { pnd with first_child := some nid, last_child := some nid })
      ∧ (∀ last, pnd.last_child = some last →
          getNode t4 pid.index = some { pnd with last_child := some nid }) := by
  cases hlco : pnd.last_child with
  | none =>
      obtain ⟨nid, t4, heq, hinv4, hnew, hcl, hcl4, hroot4⟩ :=
        iun_preserve_none hInv hp hlco
      obtain ⟨nid2, t42, heq2, hnew2, hdesc2, _, _, _⟩ :=
        @iun_none_spec T t (OptNode.new d) pnd pid hInv hp hlco
      rw [heq] at heq2
      cases heq2
      refine ⟨nid, t4, [], by rw [insert_under_eq hp]; exact heq, hinv4, hnew, hcl,
        by simpa using hcl4, ?_, ?_⟩
      · intro _
        have hpidnid : pid.index ≠ nid.index := by
          intro he
          rw [he, hnew] at hp
          cases hp
        rw [hdesc2, if_neg hpidnid, if_pos rfl]
      · intro last hlast
        cases hlast
  | some last =>
      obtain ⟨nid, t4, l0, heq, hinv4, hnew, hcl, hcl4, hroot4⟩ :=
        iun_preserve_some hInv hp hlco
      obtain ⟨nid2, lnd2, t42, heq2, hnew2, _, _, _, _, hnidpid2, _, hdesc2, _, _, _⟩ :=
        @iun_some_spec T t (OptNode.new d) pnd pid last hInv hp hlco
      rw [heq] at heq2
      cases heq2
      refine ⟨nid, t4, l0, by rw [insert_under_eq hp]; exact heq, hinv4, hnew, hcl,
        hcl4, ?_, ?_⟩
      · intro h0
        cases h0
      · intro last2 hlast2
        cases hlast2
        rw [hdesc2, if_neg (Ne.symm hnidpid2), if_pos rfl]

/-! ### Claim theorems -/

/-- C1: for every valid tree and valid parent handle `p`, `insert(node,
UnderNode(p))` appends the new node as `p`'s last child: with no previous
children both `first_child` and `last_child` of `p` become the new handle;
otherwise the old last child's `next_sibling`, the new node's
`prev_sibling`, and `p`'s `last_child` are relinked (with `first_child`
unchanged); the child chain always grows by the new handle at the end, and
inserting `c1, c2, c3` under a childless `p` in that order yields
`children(p) = [c1, c2, c3]`. -/
theorem claim_c1_insert_under_append {T : Type} (t : OptTree T) (d d1 d2 d3 : T)
    (pid : NodeId) (pnd : OptNode T)
    (hInv : TreeInv t) (hp : getNode t pid.index = some pnd) :
    (∃ nid t4 l0,
      t.insert (OptNode.new d) (InsertBehavior.UnderNode pid) = OpResult.ok nid t4
      ∧ childList t pid.index = some l0
      ∧ childList t4 pid.index = some (l0 ++ [nid.index])
      ∧ (pnd.last_child = none →
          getNode t4 pid.index
            = some { pnd with first_child := some nid, last_child := some nid })
      ∧ (∀ last, pnd.last_child = some last →
          getNode t4 pid.index = some { pnd with last_child := some nid }
          ∧ (∃ lnd, getNode t last.index = some lnd
              ∧ getNode t4 last.index = some { lnd with next_sibling := some nid })
          ∧ getNode t4 nid.index
              = some { OptNode.new d with parent := some pid, prev_sibling := some last }))
    ∧ (pnd.first_child = none →
        ∃ i1 t1 i2 t2 i3 t3,
          t.insert (OptNode.new d1) (InsertBehavior.UnderNode pid) = OpResult.ok i1 t1
          ∧ t1.insert (OptNode.new d2) (InsertBehavior.UnderNode pid) = OpResult.ok i2 t2
          ∧ t2.insert (OptNode.new d3) (InsertBehavior.UnderNode pid) = OpResult.ok i3 t3
          ∧ childList t3 pid.index = some [i1.index, i2.index, i3.index]) := by
  constructor
  · cases hlco : pnd.last_child with
    | none =>
        obtain ⟨nid, t4, l0, heq, _, _, hcl, hcl4, hnone, _⟩ := iun_combined hInv hp
        refine ⟨nid, t4, l0, heq, hcl, hcl4, fun _ => hnone hlco, ?_⟩
        intro last hlast
        cases hlast
    | some last =>
        obtain ⟨nid, t4, l0, heq, _, _, hcl, hcl4, _, hsome⟩ := iun_combined hInv hp
        obtain ⟨nid2, lnd2, t42, heq2, _, hlnd2, _, _, hlastpid2, hnidpid2, hnidlast2,
          hdesc2, _, _, _⟩ :=
          @iun_some_spec T t (OptNode.new d) pnd pid last hInv hp hlco
        rw [insert_under_eq hp] at heq
        rw [heq] at heq2
        cases heq2
        refine ⟨nid, t4, l0, by rw [insert_under_eq hp]; exact heq, hcl, hcl4, ?_, ?_⟩
        · intro h0
          cases h0
        · intro last3 hlast3
          cases hlast3
          refine ⟨hsome last hlco, ⟨lnd2, hlnd2, ?_⟩, ?_⟩
          · rw [hdesc2, if_neg (Ne.symm hnidlast2), if_neg hlastpid2, if_pos rfl]
          · rw [hdesc2, if_pos rfl]
  · intro hfc
    have hcl_empty : childList t pid.index = some [] := childList_nil hp hfc
    have hlc0 : pnd.last_child = none := (inv_fc_iff_lc hInv hp).mp hfc
    obtain ⟨i1, t1, l0, heq1, hinv1, _, hcl0, hcl1, hnone1, _⟩ := iun_combined hInv hp
    have hl0e : l0 = [] := by
      rw [hcl_empty] at hcl0
      cases hcl0
      rfl
    subst hl0e
    have hp1 : getNode t1 pid.index
        = some { pnd with first_child := some i1, last_child := some i1 } :=
      hnone1 hlc0
    obtain ⟨i2, t2, l1, heq2, hinv2, _, hcl1b, hcl2, _, hsome2⟩ := iun_combined hinv1 hp1
    have hl1e : l1 = [i1.index] := by
      rw [show childList t1 pid.index = some ([] ++ [i1.index]) from hcl1] at hcl1b
      cases hcl1b
      rfl
    subst hl1e
    have hp2 : getNode t2 pid.index
        = some { pnd with first_child := some i1, last_child := some i2 } := by
      have := hsome2 i1 rfl
      exact this
    obtain ⟨i3, t3, l2, heq3, hinv3, _, hcl2b, hcl3, _, hsome3⟩ := iun_combined hinv2 hp2
    have hl2e : l2 = [i1.index, i2.index] := by
      rw [show childList t2 pid.index = some ([i1.index] ++ [i2.index]) from hcl2] at hcl2b
      cases hcl2b
      rfl
    subst hl2e
    exact ⟨i1, t1, i2, t2, i3, t3, heq1, heq2, heq3, by simpa using hcl3⟩

/-- C2: `insert(node, AsRoot)` never fails; on a rooted tree the old root
becomes the sole child of the new root (its parent is redirected, the new
root adopts it as both child links, its sibling links stay `none`, and its
own child chain is unchanged); on an empty tree the new node becomes root
with no structural links. -/
theorem claim_c2_asroot_wrap {T : Type} (t : OptTree T) (d : T) (hInv : TreeInv t) :
    ∃ nid t2,
      t.insert (OptNode.new d) InsertBehavior.AsRoot = OpResult.ok nid t2
      ∧ t2.core_tree.root = some nid
      ∧ (t.core_tree.root = none → getNode t2 nid.index = some (OptNode.new d))
      ∧ (∀ r, t.core_tree.root = some r →
          (∃ rnd, getNode t r.index = some rnd
            ∧ getNode t2 r.index = some { rnd with parent := some nid }
            ∧ rnd.prev_sibling = none ∧ rnd.next_sibling = none)
          ∧ getNode t2 nid.index
              = some { OptNode.new d with first_child := some r, last_child := some r }
          ∧ childList t2 nid.index = some [r.index]
          ∧ childList t2 r.index = childList t r.index) := by
  rw [insert_asroot_eq]
  cases hrc : t.core_tree.root with
  | none =>
      obtain ⟨nid, t2, heq, hinv2, hget, hroot2⟩ := sr_preserve_empty hInv hrc
      refine ⟨nid, t2, heq, hroot2, fun _ => hget, ?_⟩
      intro r hr
      cases hr
  | some cr =>
      obtain ⟨nid, crnd, t3, heq, hinv3, hcrnd, hget3cr, hget3nid, hroot3,
        hchild_nid, hchild_pres⟩ := sr_preserve_root hInv hrc
      refine ⟨nid, t3, heq, hroot3, ?_, ?_⟩
      · intro h0
        cases h0
      · intro r hr
        cases hr
        have hsib := inv_parent_none hInv hcrnd
          (by
            obtain ⟨rnd2, hrnd2, hrp2⟩ := inv_root hInv hrc
            rw [hcrnd] at hrnd2
            cases hrnd2
            exact hrp2)
        obtain ⟨lq, hlq, hlq3⟩ := hchild_pres hcrnd
        exact ⟨⟨crnd, hcrnd, hget3cr, hsib.2.1, hsib.2.2⟩, hget3nid, hchild_nid,
          by rw [hlq, hlq3]⟩

/-- C3: `insert(node, UnderNode(h))` on a handle that does not resolve to an
occupied slot fails with `HandleInvalid` and returns the tree unchanged:
validation happens before any allocation or pointer surgery. -/
theorem claim_c3_invalid_handle {T : Type} (t : OptTree T) (node : OptNode T)
    (pid : NodeId) (h : getNode t pid.index = none) :
    t.insert node (InsertBehavior.UnderNode pid)
      = OpResult.error NodeIdError.HandleInvalid t :=
  insert_invalid_spec t node pid h

/-- C4: in every reachable state, for every occupied node `p`, the
`next_sibling` walk from `first_child` yields exactly `p`'s children, each
once, starting at `first_child` and ending at `last_child` whose
`next_sibling` is `none`, and the `prev_sibling` walk from `last_child`
yields the reverse chain. -/
theorem claim_c4_sibling_chain {T : Type} (t : OptTree T) (p : Nat) (pnd : OptNode T)
    (hreach : Reachable t) (hp : getNode t p = some pnd) :
    ∃ l, childList t p = some l ∧ l.Nodup
      ∧ (∀ x, x ∈ l ↔ ∃ xnd, getNode t x = some xnd ∧ xnd.parent = some ⟨p⟩)
      ∧ oIdx pnd.first_child = l.head?
      ∧ (l = [] → pnd.last_child = none ∧ pnd.first_child = none)
      ∧ (∀ e, l.getLast? = some e → pnd.last_child = some ⟨e⟩
          ∧ ∃ end_nd, getNode t e = some end_nd ∧ end_nd.next_sibling = none)
      ∧ walk (prevStep t) t.core_tree.nodes.length (oIdx pnd.last_child)
          = some l.reverse :=
  children_exact (reachable_inv hreach) hp

/-- C5: in every reachable state, an occupied node is parentless exactly
when it is the node the root handle names; the root handle (when present)
names an occupied parentless node; a non-empty arena has a root handle and
an empty root handle means an empty arena. -/
theorem claim_c5_single_root {T : Type} (t : OptTree T) (hreach : Reachable t) :
    (∀ j jnd, getNode t j = some jnd →
      (jnd.parent = none ↔ t.root_node_id = some ⟨j⟩))
    ∧ (∀ r, t.root_node_id = some r →
        ∃ rnd, getNode t r.index = some rnd ∧ rnd.parent = none)
    ∧ ((∃ i, getNode t i ≠ none) → t.root_node_id ≠ none)
    ∧ (t.root_node_id = none → ∀ i, getNode t i = none) := by
  have hInv := reachable_inv hreach
  refine ⟨?_, ?_, ?_, ?_⟩
  · intro j jnd hj
    constructor
    · intro hpn
      exact (inv_parent_none hInv hj hpn).1
    · intro hr
      obtain ⟨rnd, hrnd, hrpar⟩ := inv_root hInv hr
      have h2 : getNode t j = some rnd := hrnd
      rw [hj] at h2
      cases h2
      exact hrpar
  · intro r hr
    exact inv_root hInv hr
  · rintro ⟨i, hi⟩ hnone
    cases hg : getNode t i with
    | none => exact hi hg
    | some nd =>
        have h1 := inv_empty hInv hnone (getNode_lt hg)
        rw [hg] at h1
        cases h1
  · intro hnone i
    by_cases hlt : i < t.core_tree.nodes.length
    · exact inv_empty hInv hnone hlt
    · exact getNode_oob (Nat.le_of_not_lt hlt)

/-- C6: in every reachable state, for every valid handle `start`, the
`ancestors` iterator yields a finite list beginning with `start`, where
each element's `parent` is the next element, ending at (and including) the
root, which is the only parentless element yielded. -/
theorem claim_c6_ancestors {T : Type} (t : OptTree T) (start : NodeId)
    (snd0 : OptNode T) (hreach : Reachable t)
    (hs : getNode t start.index = some snd0) :
    ∃ l, t.ancestors start = Except.ok (some l)
      ∧ l.head? = some start.index
      ∧ (∀ k x, l[k]? = some x →
          ∃ xnd, getNode t x = some xnd ∧ oIdx xnd.parent = l[k + 1]?)
      ∧ (∃ e, l.getLast? = some e ∧ t.core_tree.root = some ⟨e⟩
          ∧ ∃ end_nd, getNode t e = some end_nd ∧ end_nd.parent = none) := by
  have hInv := reachable_inv hreach
  have hv : t.core_tree.validate_node_id start = true := validate_iff.mpr ⟨snd0, hs⟩
  obtain ⟨l, hl, hlnd⟩ := inv_ancList hInv hs
  have hrel := ancList_rel hl
  refine ⟨l, ?_, ?_, ?_, ?_⟩
  · unfold OptTree.ancestors
    rw [hv, if_pos rfl, hl]
  · obtain ⟨l2, hl2⟩ := walkRel_head hrel
    rw [hl2]
    rfl
  · intro k x hx
    have hstep := walkRel_get hrel k x hx
    obtain ⟨xnd, hxnd, hox⟩ := parentStep_isSome hstep
    exact ⟨xnd, hxnd, hox⟩
  · obtain ⟨e, hle, hse⟩ := walkRel_last hrel
    obtain ⟨end_nd, hend, hoe⟩ := parentStep_isSome hse
    have hendpar : end_nd.parent = none := by
      cases hep : end_nd.parent with
      | none => rfl
      | some q =>
          rw [hep] at hoe
          simp only [oIdx, Option.map_some'] at hoe
          cases hoe
    exact ⟨e, hle, (inv_parent_none hInv hend hendpar).1, end_nd, hend, hendpar⟩

/-- C7 counterexample: on a concrete tree whose root has two children,
`remove(root, LiftChildrenToParent)` does not fail with `InvalidOperation`
as the claim states - the source body is `unimplemented!()`, so the call
panics. -/
theorem claim_c7_counterexample :
    OptTree.remove exTree3 ⟨0⟩ RemoveBehavior.LiftChildrenToParent
      = RemoveResult.panicked
    ∧ OptTree.remove exTree3 ⟨0⟩ RemoveBehavior.LiftChildrenToParent
      ≠ RemoveResult.error NodeIdError.InvalidOperation exTree3
    ∧ OptTree.remove exTree1 ⟨0⟩ RemoveBehavior.LiftChildrenToParent
      ≠ RemoveResult.ok ⟨1, none, none, none, none, none⟩ OptTree.new := by
  refine ⟨rfl, ?_, ?_⟩ <;> intro h <;> cases h

/-- C7 (amended): `remove` is a stub in this source: for every tree, handle
and behavior its body is `unimplemented!()`, so it panics and never returns
success nor any `NodeIdError`. -/
theorem claim_c7_remove_unimplemented {T : Type} (t : OptTree T) (node_id : NodeId)
    (behavior : RemoveBehavior) :
    t.remove node_id behavior = RemoveResult.panicked :=
  rfl

/-- C8: a successful `insert(node, UnderNode(p))` touches only the slots it
must relink: the parent (child links only), the former last child
(`next_sibling` only), and the freshly allocated slot; every other slot is
unchanged. -/
theorem claim_c8_frame {T : Type} (t : OptTree T) (node : OptNode T) (pid : NodeId)
    (pnd : OptNode T) (hInv : TreeInv t) (hp : getNode t pid.index = some pnd) :
    ∃ nid t4,
      t.insert node (InsertBehavior.UnderNode pid) = OpResult.ok nid t4
      ∧ getNode t nid.index = none
      ∧ (pnd.last_child = none →
          getNode t4 pid.index
            = some { pnd with first_child := some nid, last_child := some nid }
          ∧ getNode t4 nid.index = some { node with parent := some pid }
          ∧ ∀ j, j ≠ pid.index → j ≠ nid.index → getNode t4 j = getNode t j)
      ∧ (∀ last, pnd.last_child = some last →
          getNode t4 pid.index = some { pnd with last_child := some nid }
          ∧ (∃ lnd, getNode t last.index = some lnd
              ∧ getNode t4 last.index = some { lnd with next_sibling := some nid })
          ∧ getNode t4 nid.index
              = some { node with parent := some pid, prev_sibling := some last }
          ∧ ∀ j, j ≠ pid.index → j ≠ nid.index → j ≠ last.index →
              getNode t4 j = getNode t j) := by
  cases hlco : pnd.last_child with
  | none =>
      obtain ⟨nid, t4, heq, hnew, hdesc, _, _, _⟩ :=
        @iun_none_spec T t node pnd pid hInv hp hlco
      have hpidnid : pid.index ≠ nid.index := by
        intro he
        rw [he, hnew] at hp
        cases hp
      refine ⟨nid, t4, by rw [insert_under_eq hp]; exact heq, hnew, ?_, ?_⟩
      · intro _
        refine ⟨?_, ?_, ?_⟩
        · rw [hdesc, if_neg hpidnid, if_pos rfl]
        · rw [hdesc, if_pos rfl]
        · intro j hjp hjn
          rw [hdesc, if_neg hjn, if_neg hjp]
      · intro last hlast
        cases hlast
  | some last =>
      obtain ⟨nid, lnd, t4, heq, hnew, hlnd, _, _, hlastpid, hnidpid, hnidlast,
        hdesc, _, _, _⟩ :=
        @iun_some_spec T t node pnd pid last hInv hp hlco
      refine ⟨nid, t4, by rw [insert_under_eq hp]; exact heq, hnew, ?_, ?_⟩
      · intro h0
        cases h0
      · intro last2 hlast2
        cases hlast2
        refine ⟨?_, ⟨lnd, hlnd, ?_⟩, ?_, ?_⟩
        · rw [hdesc, if_neg (Ne.symm hnidpid), if_pos rfl]
        · rw [hdesc, if_neg (Ne.symm hnidlast), if_neg hlastpid, if_pos rfl]
        · rw [hdesc, if_pos rfl]
        · intro j hjp hjn hjl
          rw [hdesc, if_neg hjn, if_neg hjp, if_neg hjl]

/-- C9: in every reachable state, every occupied node has `first_child`
absent exactly when `last_child` is absent, so the panic branches of
`insert_under_node` are unreachable: insertion under any valid parent
handle never panics. -/
theorem claim_c9_no_panic {T : Type} (t : OptTree T) (hreach : Reachable t) :
    (∀ i nd, getNode t i = some nd → (nd.first_child = none ↔ nd.last_child = none))
    ∧ (∀ (node : OptNode T) (pid : NodeId),
        t.core_tree.validate_node_id pid = true →
        t.insert node (InsertBehavior.UnderNode pid) ≠ OpResult.panicked) := by
  have hInv := reachable_inv hreach
  refine ⟨fun i nd hnd => inv_fc_iff_lc hInv hnd, ?_⟩
  intro node pid hv heq
  obtain ⟨pnd, hp⟩ := validate_iff.mp hv
  rw [insert_under_eq hp] at heq
  cases hlco : pnd.last_child with
  | none =>
      obtain ⟨nid, t4, heq2, _, _, _, _, _⟩ := @iun_none_spec T t node pnd pid hInv hp hlco
      rw [heq2] at heq
      cases heq
  | some last =>
      obtain ⟨nid, lnd, t4, heq2, _, _, _, _, _, _, _, _, _, _, _⟩ :=
        @iun_some_spec T t node pnd pid last hInv hp hlco
      rw [heq2] at heq
      cases heq

/-- C10: whenever `insert` succeeds with a handle, an immediate `get` on
that handle succeeds and returns a node holding the inserted data. -/
theorem claim_c10_insert_get {T : Type} (t t4 : OptTree T) (node : OptNode T)
    (b : InsertBehavior) (id : NodeId) (hInv : TreeInv t)
    (heq : t.insert node b = OpResult.ok id t4) :
    ∃ nd, t4.get id = Except.ok nd ∧ nd.data = node.data := by
  cases b with
  | UnderNode pid =>
      cases hv : t.core_tree.validate_node_id pid with
      | false =>
          rw [OptTree.insert, hv] at heq
          simp at heq
      | true =>
          obtain ⟨pnd, hp⟩ := validate_iff.mp hv
          rw [insert_under_eq hp] at heq
          cases hlco : pnd.last_child with
          | none =>
              obtain ⟨nid, t42, heq2, _, hdesc, _, _, _⟩ :=
                @iun_none_spec T t node pnd pid hInv hp hlco
              rw [heq2] at heq
              cases heq
              refine ⟨{ node with parent := some pid }, ?_, rfl⟩
              unfold OptTree.get
              rw [hdesc, if_pos rfl]
          | some last =>
              obtain ⟨nid, lnd, t42, heq2, _, _, _, _, _, _, _, hdesc, _, _, _⟩ :=
                @iun_some_spec T t node pnd pid last hInv hp hlco
              rw [heq2] at heq
              cases heq
              refine ⟨{ node with parent := some pid, prev_sibling := some last },
                ?_, rfl⟩
              unfold OptTree.get
              rw [hdesc, if_pos rfl]
  | AsRoot =>
      rw [insert_asroot_eq] at heq
      cases hrc : t.core_tree.root with
      | none =>
          obtain ⟨nid, t2, heq2, _, hdesc, _, _, _⟩ := @sr_none_spec T t node hInv hrc
          rw [heq2] at heq
          cases heq
          refine ⟨node, ?_, rfl⟩
          unfold OptTree.get
          rw [hdesc, if_pos rfl]
      | some cr =>
          obtain ⟨nid, crnd, t3, heq2, _, _, _, _, hdesc, _, _, _⟩ :=
            @sr_some_spec T t node cr hInv hrc
          rw [heq2] at heq
          cases heq
          refine ⟨{ node with first_child := some cr, last_child := some cr }, ?_, rfl⟩
          unfold OptTree.get
          rw [hdesc, if_pos rfl]

/-! ### Witnesses -/

/-- Witness for C1 at a concrete one-node tree. -/
theorem claim_c1_witness :
    TreeInv exTree1
    ∧ getNode exTree1 (NodeId.mk 0).index
        = some (⟨1, none, none, none, none, none⟩ : OptNode Int)
    ∧ ((∃ nid t4 l0,
        exTree1.insert (OptNode.new 9) (InsertBehavior.UnderNode ⟨0⟩) = OpResult.ok nid t4
        ∧ childList exTree1 (NodeId.mk 0).index = some l0
        ∧ childList t4 (NodeId.mk 0).index = some (l0 ++ [nid.index])
        ∧ ((⟨1, none, none, none, none, none⟩ : OptNode Int).last_child = none →
            getNode t4 (NodeId.mk 0).index
              = some { (⟨1, none, none, none, none, none⟩ : OptNode Int) with
                  first_child := some nid, last_child := some nid })
        ∧ (∀ last, (⟨1, none, none, none, none, none⟩ : OptNode Int).last_child = some last →
            getNode t4 (NodeId.mk 0).index
              = some { (⟨1, none, none, none, none, none⟩ : OptNode Int) with
                  last_child := some nid }
            ∧ (∃ lnd, getNode exTree1 last.index = some lnd
                ∧ getNode t4 last.index = some { lnd with next_sibling := some nid })
            ∧ getNode t4 nid.index
                = some { OptNode.new 9 with parent := some ⟨0⟩, prev_sibling := some last }))
      ∧ ((⟨1, none, none, none, none, none⟩ : OptNode Int).first_child = none →
          ∃ i1 t1 i2 t2 i3 t3,
            exTree1.insert (OptNode.new 2) (InsertBehavior.UnderNode ⟨0⟩) = OpResult.ok i1 t1
            ∧ t1.insert (OptNode.new 3) (InsertBehavior.UnderNode ⟨0⟩) = OpResult.ok i2 t2
            ∧ t2.insert (OptNode.new 4) (InsertBehavior.UnderNode ⟨0⟩) = OpResult.ok i3 t3
            ∧ childList t3 (NodeId.mk 0).index = some [i1.index, i2.index, i3.index])) :=
  ⟨by decide, rfl,
    claim_c1_insert_under_append exTree1 9 2 3 4 ⟨0⟩ ⟨1, none, none, none, none, none⟩
      (by decide) rfl⟩

/-- Witness for C2 at a concrete one-node tree. -/
theorem claim_c2_witness :
    TreeInv exTree1
    ∧ (∃ nid t2,
        exTree1.insert (OptNode.new 7) InsertBehavior.AsRoot = OpResult.ok nid t2
        ∧ t2.core_tree.root = some nid
        ∧ (exTree1.core_tree.root = none → getNode t2 nid.index = some (OptNode.new 7))
        ∧ (∀ r, exTree1.core_tree.root = some r →
            (∃ rnd, getNode exTree1 r.index = some rnd
              ∧ getNode t2 r.index = some { rnd with parent := some nid }
              ∧ rnd.prev_sibling = none ∧ rnd.next_sibling = none)
            ∧ getNode t2 nid.index
                = some { OptNode.new 7 with first_child := some r, last_child := some r }
            ∧ childList t2 nid.index = some [r.index]
            ∧ childList t2 r.index = childList exTree1 r.index)) :=
  ⟨by decide, claim_c2_asroot_wrap exTree1 7 (by decide)⟩

/-- Witness for C3 at a concrete tree and an out-of-range handle. -/
theorem claim_c3_witness :
    getNode exTree1 (NodeId.mk 5).index = none
    ∧ exTree1.insert (OptNode.new 5) (InsertBehavior.UnderNode ⟨5⟩)
        = OpResult.error NodeIdError.HandleInvalid exTree1 :=
  ⟨rfl, claim_c3_invalid_handle exTree1 (OptNode.new 5) ⟨5⟩ rfl⟩

/-- Witness for C4 at a concrete reachable three-node tree. -/
theorem claim_c4_witness :
    Reachable exTree3
    ∧ getNode exTree3 0 = some (⟨1, none, some ⟨1⟩, some ⟨2⟩, none, none⟩ : OptNode Int)
    ∧ (∃ l, childList exTree3 0 = some l ∧ l.Nodup
      ∧ (∀ x, x ∈ l ↔ ∃ xnd, getNode exTree3 x = some xnd ∧ xnd.parent = some ⟨0⟩)
      ∧ oIdx (⟨1, none, some ⟨1⟩, some ⟨2⟩, none, none⟩ : OptNode Int).first_child = l.head?
      ∧ (l = [] → (⟨1, none, some ⟨1⟩, some ⟨2⟩, none, none⟩ : OptNode Int).last_child = none
          ∧ (⟨1, none, some ⟨1⟩, some ⟨2⟩, none, none⟩ : OptNode Int).first_child = none)
      ∧ (∀ e, l.getLast? = some e →
          (⟨1, none, some ⟨1⟩, some ⟨2⟩, none, none⟩ : OptNode Int).last_child = some ⟨e⟩
          ∧ ∃ end_nd, getNode exTree3 e = some end_nd ∧ end_nd.next_sibling = none)
      ∧ walk (prevStep exTree3) exTree3.core_tree.nodes.length
          (oIdx (⟨1, none, some ⟨1⟩, some ⟨2⟩, none, none⟩ : OptNode Int).last_child)
          = some l.reverse) := by
  have h1 : OptTree.insert OptTree.new (OptNode.new (1 : Int)) InsertBehavior.AsRoot
      = OpResult.ok ⟨0⟩ exTree1 := rfl
  have h2 : OptTree.insert exTree1 (OptNode.new (2 : Int)) (InsertBehavior.UnderNode ⟨0⟩)
      = OpResult.ok ⟨1⟩ exTree2 := rfl
  have h3 : OptTree.insert exTree2 (OptNode.new (3 : Int)) (InsertBehavior.UnderNode ⟨0⟩)
      = OpResult.ok ⟨2⟩ exTree3 := rfl
  have hreach : Reachable exTree3 :=
    Reachable.insert (Reachable.insert (Reachable.insert Reachable.new h1) h2) h3
  exact ⟨hreach, rfl,
    claim_c4_sibling_chain exTree3 0 ⟨1, none, some ⟨1⟩, some ⟨2⟩, none, none⟩ hreach rfl⟩

/-- Witness for C5 at a concrete reachable two-node tree. -/
theorem claim_c5_witness :
    Reachable exTree2
    ∧ ((∀ j jnd, getNode exTree2 j = some jnd →
        (jnd.parent = none ↔ exTree2.root_node_id = some ⟨j⟩))
      ∧ (∀ r, exTree2.root_node_id = some r →
          ∃ rnd, getNode exTree2 r.index = some rnd ∧ rnd.parent = none)
      ∧ ((∃ i, getNode exTree2 i ≠ none) → exTree2.root_node_id ≠ none)
      ∧ (exTree2.root_node_id = none → ∀ i, getNode exTree2 i = none)) := by
  have h1 : OptTree.insert OptTree.new (OptNode.new (1 : Int)) InsertBehavior.AsRoot
      = OpResult.ok ⟨0⟩ exTree1 := rfl
  have h2 : OptTree.insert exTree1 (OptNode.new (2 : Int)) (InsertBehavior.UnderNode ⟨0⟩)
      = OpResult.ok ⟨1⟩ exTree2 := rfl
  have hreach : Reachable exTree2 :=
    Reachable.insert (Reachable.insert Reachable.new h1) h2
  exact ⟨hreach, claim_c5_single_root exTree2 hreach⟩

/-- Witness for C6 at a concrete reachable three-node tree. -/
theorem claim_c6_witness :
    Reachable exTree3
    ∧ getNode exTree3 (NodeId.mk 2).index
        = some (⟨3, some ⟨0⟩, none, none, some ⟨1⟩, none⟩ : OptNode Int)
    ∧ (∃ l, exTree3.ancestors ⟨2⟩ = Except.ok (some l)
      ∧ l.head? = some (NodeId.mk 2).index
      ∧ (∀ k x, l[k]? = some x →
          ∃ xnd, getNode exTree3 x = some xnd ∧ oIdx xnd.parent = l[k + 1]?)
      ∧ (∃ e, l.getLast? = some e ∧ exTree3.core_tree.root = some ⟨e⟩
          ∧ ∃ end_nd, getNode exTree3 e = some end_nd ∧ end_nd.parent = none)) := by
  have h1 : OptTree.insert OptTree.new (OptNode.new (1 : Int)) InsertBehavior.AsRoot
      = OpResult.ok ⟨0⟩ exTree1 := rfl
  have h2 : OptTree.insert exTree1 (OptNode.new (2 : Int)) (InsertBehavior.UnderNode ⟨0⟩)
      = OpResult.ok ⟨1⟩ exTree2 := rfl
  have h3 : OptTree.insert exTree2 (OptNode.new (3 : Int)) (InsertBehavior.UnderNode ⟨0⟩)
      = OpResult.ok ⟨2⟩ exTree3 := rfl
  have hreach : Reachable exTree3 :=
    Reachable.insert (Reachable.insert (Reachable.insert Reachable.new h1) h2) h3
  exact ⟨hreach, rfl,
    claim_c6_ancestors exTree3 ⟨2⟩ ⟨3, some ⟨0⟩, none, none, some ⟨1⟩, none⟩ hreach rfl⟩

/-- Witness for C8 at a concrete two-node tree whose root has a child. -/
theorem claim_c8_witness :
    TreeInv exTree2
    ∧ getNode exTree2 (NodeId.mk 0).index
        = some (⟨1, none, some ⟨1⟩, some ⟨1⟩, none, none⟩ : OptNode Int)
    ∧ (∃ nid t4,
        exTree2.insert (OptNode.new 8) (InsertBehavior.UnderNode ⟨0⟩) = OpResult.ok nid t4
        ∧ getNode exTree2 nid.index = none
        ∧ ((⟨1, none, some ⟨1⟩, some ⟨1⟩, none, none⟩ : OptNode Int).last_child = none →
            getNode t4 (NodeId.mk 0).index
              = some { (⟨1, none, some ⟨1⟩, some ⟨1⟩, none, none⟩ : OptNode Int) with
                  first_child := some nid, last_child := some nid }
            ∧ getNode t4 nid.index = some { OptNode.new 8 with parent := some ⟨0⟩ }
            ∧ ∀ j, j ≠ (NodeId.mk 0).index → j ≠ nid.index →
                getNode t4 j = getNode exTree2 j)
        ∧ (∀ last, (⟨1, none, some ⟨1⟩, some ⟨1⟩, none, none⟩ : OptNode Int).last_child
              = some last →
            getNode t4 (NodeId.mk 0).index
              = some { (⟨1, none, some ⟨1⟩, some ⟨1⟩, none, none⟩ : OptNode Int) with
                  last_child := some nid }
            ∧ (∃ lnd, getNode exTree2 last.index = some lnd
                ∧ getNode t4 last.index = some { lnd with next_sibling := some nid })
            ∧ getNode t4 nid.index
                = some { OptNode.new 8 with parent := some ⟨0⟩, prev_sibling := some last }
            ∧ ∀ j, j ≠ (NodeId.mk 0).index → j ≠ nid.index → j ≠ last.index →
                getNode t4 j = getNode exTree2 j)) :=
  ⟨by decide, rfl,
    claim_c8_frame exTree2 (OptNode.new 8) ⟨0⟩ ⟨1, none, some ⟨1⟩, some ⟨1⟩, none, none⟩
      (by decide) rfl⟩

/-- Witness for C9 at a concrete reachable three-node tree. -/
theorem claim_c9_witness :
    Reachable exTree3
    ∧ ((∀ i nd, getNode exTree3 i = some nd →
        (nd.first_child = none ↔ nd.last_child = none))
      ∧ (∀ (node : OptNode Int) (pid : NodeId),
          exTree3.core_tree.validate_node_id pid = true →
          exTree3.insert node (InsertBehavior.UnderNode pid) ≠ OpResult.panicked)) := by
  have h1 : OptTree.insert OptTree.new (OptNode.new (1 : Int)) InsertBehavior.AsRoot
      = OpResult.ok ⟨0⟩ exTree1 := rfl
  have h2 : OptTree.insert exTree1 (OptNode.new (2 : Int)) (InsertBehavior.UnderNode ⟨0⟩)
      = OpResult.ok ⟨1⟩ exTree2 := rfl
  have h3 : OptTree.insert exTree2 (OptNode.new (3 : Int)) (InsertBehavior.UnderNode ⟨0⟩)
      = OpResult.ok ⟨2⟩ exTree3 := rfl
  have hreach : Reachable exTree3 :=
    Reachable.insert (Reachable.insert (Reachable.insert Reachable.new h1) h2) h3
  exact ⟨hreach, claim_c9_no_panic exTree3 hreach⟩

/-- Witness for C10 at a concrete insertion. -/
theorem claim_c10_witness :
    TreeInv exTree1
    ∧ exTree1.insert (OptNode.new 2) (InsertBehavior.UnderNode ⟨0⟩)
        = OpResult.ok ⟨1⟩ exTree2
    ∧ (∃ nd, exTree2.get ⟨1⟩ = Except.ok nd ∧ nd.data = (OptNode.new (2 : Int)).data) :=
  ⟨by decide, rfl,
    claim_c10_insert_get exTree1 exTree2 (OptNode.new 2) (InsertBehavior.UnderNode ⟨0⟩)
      ⟨1⟩ (by decide) rfl⟩
